import Mathlib

/-!
Verification of the day-24 symbolic abstract-interpretation engine
(`src/day24.rs`): a four-register integer machine with six opcodes, a
concrete backtracking executor, a breadcrumb constraint lattice, and a
forward symbolic pass whose extracted constraints prune the backward
digit search.

The Lean definitions below are a shallow embedding of the Rust source,
translated declaration by declaration.  Machine integers (`i64`) are
modelled as unbounded `Int`; Rust `/` and `%` (which truncate toward
zero) are `Int.tdiv` / `Int.tmod`.  A Rust panic (e.g. division by a
zero operand) is modelled by the `RunResult.crash` outcome, which is
distinct from the recoverable `RunResult.err` that the search uses for
backtracking, because a panic propagates through `do_input` instead of
being caught by the candidate loop.  Rust's bounded recursion is
modelled with a fuel parameter; `RunResult.timeout` marks fuel
exhaustion and never occurs for adequate fuel.
-/

/-- The four machine registers (src/day24.rs `Register`). -/
inductive Register where
  | W
  | X
  | Y
  | Z
deriving DecidableEq

/-- An operand: a literal value or a register (src/day24.rs `Operand`). -/
inductive Operand where
  | Value (v : Int)
  | Register (r : Register)
deriving DecidableEq

/-- The instruction set (src/day24.rs `Operation`).  `Input` carries its
0-based appearance index, `Equal` its 0-based comparison id. -/
inductive Operation where
  | Input (id : Nat) (reg : Register)
  | Add (reg : Register) (opd : Operand)
  | Multiply (reg : Register) (opd : Operand)
  | Divide (reg : Register) (opd : Operand)
  | Modulo (reg : Register) (opd : Operand)
  | Equal (id : Nat) (reg : Register) (opd : Operand)
deriving DecidableEq

/-- The destination register of an operation (src `Operation::get_register`). -/
def Operation.get_register : Operation → Register
  | .Input _ reg => reg
  | .Add reg _ => reg
  | .Multiply reg _ => reg
  | .Divide reg _ => reg
  | .Modulo reg _ => reg
  | .Equal _ reg _ => reg

/-- Concrete machine state (src/day24.rs `State`): the four registers
(all starting at 0), the digits consumed so far, and the program
counter. -/
structure State where
  w : Int := 0
  x : Int := 0
  y : Int := 0
  z : Int := 0
  inputs : List Int := []
  pc : Nat := 0
deriving DecidableEq

def State.getReg (s : State) : Register → Int
  | .W => s.w
  | .X => s.x
  | .Y => s.y
  | .Z => s.z

def State.setReg (s : State) : Register → Int → State
  | .W, v => { s with w := v }
  | .X, v => { s with x := v }
  | .Y, v => { s with y := v }
  | .Z, v => { s with z := v }

/-- Resolve an operand against a state (src `State::get_value`). -/
def State.value (s : State) : Operand → Int
  | .Value i => i
  | .Register reg => s.getReg reg

/-- The environment trait (src/day24.rs `Environment`): candidate input
values per input id, the branch-abandon test, and the final-state
acceptance test. -/
structure Environment where
  get_input : Nat → List Int
  should_abandon : Operation → Int → Bool
  can_finish : State → Bool

/-- Outcome of running the concrete executor.  `ok` and `err` mirror the
Rust `Result<(), String>` (with the final state carried explicitly);
`crash` models a Rust panic, which is not caught anywhere; `timeout`
models fuel exhaustion (never occurs for adequate fuel). -/
inductive RunResult where
  | ok (s : State)
  | err (msg : String)
  | crash (msg : String)
  | timeout
deriving DecidableEq

/-- The candidate loop inside `State::do_input`: try each input value in
order; a recoverable error moves on to the next candidate, success
returns the completed child state, and a panic or fuel exhaustion
propagates. -/
def tryList (runChild : Int → RunResult) : List Int → RunResult
  | [] => .err "Input exhausted"
  | d :: rest =>
    match runChild d with
    | .ok sf => .ok sf
    | .err _ => tryList runChild rest
    | r => r

/-- The child state built for one candidate digit inside
`State::do_input`: clone, push the digit, store it in the register,
advance the pc. -/
def inputChild (s : State) (reg : Register) (d : Int) : State :=
  { s.setReg reg d with inputs := s.inputs ++ [d], pc := s.pc + 1 }

/-- The arithmetic result of a non-input statement, or `none` when the
Rust expression would panic (`/` or `%` by zero).  Rust `i64` division
truncates toward zero, hence `Int.tdiv` / `Int.tmod`. -/
def stepResult (s : State) : Operation → Option Int
  | .Input _ _ => none
  | .Add reg opd => some (s.getReg reg + s.value opd)
  | .Multiply reg opd => some (s.getReg reg * s.value opd)
  | .Divide reg opd =>
    let d := s.value opd
    if d = 0 then none else some (Int.tdiv (s.getReg reg) d)
  | .Modulo reg opd =>
    let d := s.value opd
    if d = 0 then none else some (Int.tmod (s.getReg reg) d)
  | .Equal _ reg opd => some (if s.getReg reg = s.value opd then 1 else 0)

/-- The concrete executor (src `State::execute`, with `State::do_input`
inlined at the `Input` case — the Rust helper re-reads the same
instruction at `self.pc` and loops over `env.get_input`).  Per loop
iteration: compute the statement's result (Input recursing over every
candidate digit, div/mod by zero panicking), store it in the
destination register, fail the branch if the environment says to
abandon, else advance.  When the pc leaves the program, accept iff
`can_finish`. -/
def execute (env : Environment) (prog : List Operation) : Nat → State → RunResult
  | 0, _ => .timeout
  | fuel + 1, s =>
    if h : s.pc < prog.length then
      match prog[s.pc] with
      | .Input id reg =>
        match tryList (fun d => execute env prog fuel (inputChild s reg d)) (env.get_input id) with
        | .ok sf => execute env prog fuel sf
        | r => r
      | op =>
        match stepResult s op with
        | none => .crash "divide by zero"
        | some result =>
          let s2 := s.setReg op.get_register result
          if env.should_abandon op result then .err "abandoned"
          else execute env prog fuel { s2 with pc := s.pc + 1 }
    else if env.can_finish s then .ok s
    else .err "Final state not accepted"

/-- src `SimpleEnvironment`: feed a fixed digit list (one candidate per
input id), never abandon, accept any final state. -/
def simpleEnvironment (inputs : List Int) : Environment where
  get_input id := if h : id < inputs.length then [inputs[id]] else []
  should_abandon _ _ := false
  can_finish _ := true

/-- The digits 9 down to 1 (src `(1..=9).rev().collect()`). -/
def descDigits : List Int := [9, 8, 7, 6, 5, 4, 3, 2, 1]

/-- The digits 1 up to 9 (src `(1..=9).collect()`). -/
def ascDigits : List Int := [1, 2, 3, 4, 5, 6, 7, 8, 9]

/-- src `ConstrainedEnvironment::should_abandon`: abandon exactly when
the statement is an `Equal` whose comparison id is within the constraint
vector, pinned to `some required`, and the concrete outcome disagrees. -/
def constrainedAbandon (constraint : List (Option Bool)) : Operation → Int → Bool
  | .Equal id _ _, result =>
    match constraint.getD id none with
    | some required => required != (result == 1)
    | none => false
  | _, _ => false

/-- src `ConstrainedEnvironment`: try every digit (descending or
ascending), prune on pinned comparison disagreement, accept only when
register Z is zero. -/
def constrainedEnvironment (constraint : List (Option Bool)) (is_descending : Bool) :
    Environment where
  get_input _ := if is_descending then descDigits else ascDigits
  should_abandon := constrainedAbandon constraint
  can_finish s := s.getReg .Z == 0

/-- The four-valued constraint lattice (src `SymbolicBoolean`). -/
inductive SymbolicBoolean where
  | ANY
  | TRUE
  | FALSE
  | INVALID
deriving DecidableEq

/-- src `SymbolicBoolean::or`: equal inputs return that input, INVALID
is the identity, any other disagreement widens to ANY. -/
def SymbolicBoolean.or (a b : SymbolicBoolean) : SymbolicBoolean :=
  if a = b then a
  else if a = .INVALID then b
  else if b = .INVALID then a
  else .ANY

/-- src `SymbolicBoolean::and`: equal inputs return that input, ANY is
the identity, any other disagreement collapses to INVALID. -/
def SymbolicBoolean.and (a b : SymbolicBoolean) : SymbolicBoolean :=
  if a = b then a
  else if a = .ANY then b
  else if b = .ANY then a
  else .INVALID

/-- src `SymbolicBoolean::get_single`: the pinned boolean, if unique. -/
def SymbolicBoolean.get_single : SymbolicBoolean → Option Bool
  | .TRUE => some true
  | .FALSE => some false
  | _ => none

/-- Per-comparison-id requirement vector (src `BreadCrumb`); positions
past the end of the vector are implicitly `ANY`. -/
structure BreadCrumb where
  crumbs : List SymbolicBoolean
deriving DecidableEq

/-- src `BreadCrumb::init`: the empty (all-ANY) breadcrumb — the Rust
constructor only reserves capacity. -/
def BreadCrumb.init : BreadCrumb := ⟨[]⟩

/-- The lattice value recorded at a position, treating positions past
the end of the vector as `ANY` (the representation invariant stated on
src `BreadCrumb::crumbs`). -/
def BreadCrumb.get (bc : BreadCrumb) (i : Nat) : SymbolicBoolean :=
  bc.crumbs.getD i .ANY

/-- Pad a list with `ANY` up to index `idx` and overwrite that slot
(the loop inside src `BreadCrumb::set`). -/
def setPad : List SymbolicBoolean → Nat → SymbolicBoolean → List SymbolicBoolean
  | [], 0, v => [v]
  | [], n + 1, v => .ANY :: setPad [] n v
  | _ :: cs, 0, v => v :: cs
  | c :: cs, n + 1, v => c :: setPad cs n v

/-- src `BreadCrumb::set`: replace the value at `equal_idx` (padding
with `ANY` as needed) with TRUE or FALSE. -/
def BreadCrumb.set (bc : BreadCrumb) (equal_idx : Nat) (value : Bool) : BreadCrumb :=
  ⟨setPad bc.crumbs equal_idx (if value then .TRUE else .FALSE)⟩

/-- The position-wise loops of src `BreadCrumb::or`: positions covered
by both vectors combine with `SymbolicBoolean::or`; the extra positions
of either vector are combined with the implicit `ANY` of the other. -/
def orLists : List SymbolicBoolean → List SymbolicBoolean → List SymbolicBoolean
  | [], ys => ys.map (fun b => SymbolicBoolean.or .ANY b)
  | a :: as_, [] => SymbolicBoolean.or .ANY a :: orLists as_ []
  | a :: as_, b :: bs => a.or b :: orLists as_ bs

/-- src `BreadCrumb::or` (as a pure operation returning the combined
breadcrumb). -/
def BreadCrumb.or (bc other : BreadCrumb) : BreadCrumb :=
  ⟨orLists bc.crumbs other.crumbs⟩

/-- The position-wise loops of src `BreadCrumb::and`: positions covered
by both vectors combine with `SymbolicBoolean::and`; the extra positions
of `self` are unchanged and the extra positions of `other` are copied
(both equal to combining with the implicit `ANY`). -/
def andLists : List SymbolicBoolean → List SymbolicBoolean → List SymbolicBoolean
  | [], ys => ys
  | a :: as_, [] => a :: andLists as_ []
  | a :: as_, b :: bs => a.and b :: andLists as_ bs

/-- src `BreadCrumb::and` (as a pure operation returning the combined
breadcrumb). -/
def BreadCrumb.and (bc other : BreadCrumb) : BreadCrumb :=
  ⟨andLists bc.crumbs other.crumbs⟩

/-- src `BreadCrumb::get_constraint`: per position, the pinned boolean
if the lattice value is unique. -/
def BreadCrumb.get_constraint (bc : BreadCrumb) : List (Option Bool) :=
  bc.crumbs.map SymbolicBoolean.get_single

/-- src `SymbolicValue`: an exact map from reachable concrete value to
the breadcrumb recording how to reach it.  The Rust `HashMap` is
modelled as an association list with distinct keys; since breadcrumb
merging is performed pairwise exactly as in the source, only the
(semantically irrelevant) iteration order differs. -/
structure SymbolicValue where
  values : List (Int × BreadCrumb)
deriving DecidableEq

/-- Look up the breadcrumb stored for a concrete value. -/
def SymbolicValue.find (sv : SymbolicValue) (k : Int) : Option BreadCrumb :=
  (sv.values.find? (fun p => p.1 == k)).map (·.2)

/-- The key set of a symbolic value. -/
def SymbolicValue.keys (sv : SymbolicValue) : List Int :=
  sv.values.map (·.1)

/-- src `SymbolicValue::literal`: a single entry with an empty
breadcrumb. -/
def SymbolicValue.literal (x : Int) : SymbolicValue :=
  ⟨[(x, BreadCrumb.init)]⟩

/-- Merging one `(value, breadcrumb)` pair into the result map: an
existing entry for the value absorbs the new breadcrumb with
`BreadCrumb::or`, otherwise a new entry is created (the
`match result.values.get_mut ...` at the bottom of every `do_*` loop in
the source). -/
def insertOr : List (Int × BreadCrumb) → Int → BreadCrumb → List (Int × BreadCrumb)
  | [], k, c => [(k, c)]
  | (k0, c0) :: rest, k, c =>
    if k0 = k then (k0, c0.or c) :: rest else (k0, c0) :: insertOr rest k c

/-- All (left entry, right entry) pairs, left-outer right-inner — the
two nested loops of every binary `do_*` in the source. -/
def allPairs (xs ys : List (Int × BreadCrumb)) : List ((Int × BreadCrumb) × (Int × BreadCrumb)) :=
  xs.flatMap (fun a => ys.map (fun b => (a, b)))

/-- The shared shape of the binary `do_*` methods: iterate every pair of
left/right entries, compute the result value with `val` and the combined
breadcrumb with `crumb`, and merge into the output map via `insertOr`. -/
def crossBuild (left right : SymbolicValue) (val : Int → Int → Int)
    (crumb : Int → BreadCrumb → Int → BreadCrumb → BreadCrumb) : SymbolicValue :=
  ⟨(allPairs left.values right.values).foldl
    (fun acc p => insertOr acc (val p.1.1 p.2.1) (crumb p.1.1 p.1.2 p.2.1 p.2.2)) []⟩

/-- Symbolic state (src `SymbolicState`): one symbolic value per
register, all initially the literal 0. -/
structure SymbolicState where
  pc : Nat := 0
  w : SymbolicValue := .literal 0
  x : SymbolicValue := .literal 0
  y : SymbolicValue := .literal 0
  z : SymbolicValue := .literal 0
deriving DecidableEq

def SymbolicState.getReg (ss : SymbolicState) : Register → SymbolicValue
  | .W => ss.w
  | .X => ss.x
  | .Y => ss.y
  | .Z => ss.z

def SymbolicState.setReg (ss : SymbolicState) : Register → SymbolicValue → SymbolicState
  | .W, v => { ss with w := v }
  | .X, v => { ss with x := v }
  | .Y, v => { ss with y := v }
  | .Z, v => { ss with z := v }

/-- src `SymbolicState::get_value`: resolve an operand symbolically. -/
def SymbolicState.get_value (ss : SymbolicState) : Operand → SymbolicValue
  | .Register reg => ss.getReg reg
  | .Value v => .literal v

/-- src `SymbolicState::do_input`: all digits 1..9, each with an empty
breadcrumb. -/
def SymbolicState.do_input : SymbolicValue :=
  ⟨[(1, .init), (2, .init), (3, .init), (4, .init), (5, .init),
    (6, .init), (7, .init), (8, .init), (9, .init)]⟩

/-- src `SymbolicState::do_add`: result value is the sum, combined
breadcrumb is always `and` of both sides. -/
def SymbolicState.do_add (ss : SymbolicState) (reg : Register) (opd : Operand) : SymbolicValue :=
  crossBuild (ss.getReg reg) (ss.get_value opd) (· + ·) (fun _ lc _ rc => lc.and rc)

/-- The breadcrumb combination of src `SymbolicState::do_multiply`: if
both factors are zero, either path explains the zero (`or`); if exactly
one side is zero, only the zero side's breadcrumb matters; otherwise
both histories matter (`and`). -/
def multiplyCrumb (lv : Int) (lc : BreadCrumb) (rv : Int) (rc : BreadCrumb) : BreadCrumb :=
  if lv = 0 ∧ rv = 0 then lc.or rc
  else if lv = 0 then lc
  else if rv = 0 then rc
  else lc.and rc

/-- src `SymbolicState::do_multiply`. -/
def SymbolicState.do_multiply (ss : SymbolicState) (reg : Register) (opd : Operand) :
    SymbolicValue :=
  crossBuild (ss.getReg reg) (ss.get_value opd) (· * ·) multiplyCrumb

/-- The breadcrumb combination of src `SymbolicState::do_divide` and
`do_modulo`: if the left value is 0 the right side's breadcrumb is
irrelevant, otherwise `and`. -/
def divModCrumb (lv : Int) (lc : BreadCrumb) (_ : Int) (rc : BreadCrumb) : BreadCrumb :=
  if lv ≠ 0 then lc.and rc else lc

/-- src `SymbolicState::do_divide`.  The Rust loop computes
`left_val / right_val` for every pair, so it panics (modelled `none`)
as soon as any pair is evaluated whose right value is 0. -/
def SymbolicState.do_divide (ss : SymbolicState) (reg : Register) (opd : Operand) :
    Option SymbolicValue :=
  let left := ss.getReg reg
  let right := ss.get_value opd
  if left.values ≠ [] ∧ 0 ∈ right.keys then none
  else some (crossBuild left right (fun a b => Int.tdiv a b) divModCrumb)

/-- src `SymbolicState::do_modulo` (same zero-divisor panic as
`do_divide`). -/
def SymbolicState.do_modulo (ss : SymbolicState) (reg : Register) (opd : Operand) :
    Option SymbolicValue :=
  let left := ss.getReg reg
  let right := ss.get_value opd
  if left.values ≠ [] ∧ 0 ∈ right.keys then none
  else some (crossBuild left right (fun a b => Int.tmod a b) divModCrumb)

/-- src `SymbolicState::do_equals`: cross-build with result 1 or 0 and
`and`-combined breadcrumbs, then stamp this instruction's comparison id
into every resulting breadcrumb, TRUE at key 1 and FALSE at key 0. -/
def SymbolicState.do_equals (ss : SymbolicState) (id : Nat) (reg : Register) (opd : Operand) :
    SymbolicValue :=
  let base := crossBuild (ss.getReg reg) (ss.get_value opd)
    (fun lv rv => if lv = rv then 1 else 0) (fun _ lc _ rc => lc.and rc)
  ⟨base.values.map (fun p => (p.1, p.2.set id (p.1 == 1)))⟩

/-- One step of the forward pass: the `match` inside
`SymbolicState::evaluate`, returning `none` where the Rust code would
panic. -/
def SymbolicState.evalOp (ss : SymbolicState) : Operation → Option SymbolicState
  | .Input _ reg => some (ss.setReg reg SymbolicState.do_input)
  | .Add reg opd => some (ss.setReg reg (ss.do_add reg opd))
  | .Multiply reg opd => some (ss.setReg reg (ss.do_multiply reg opd))
  | .Divide reg opd => (ss.do_divide reg opd).map (ss.setReg reg)
  | .Modulo reg opd => (ss.do_modulo reg opd).map (ss.setReg reg)
  | .Equal id reg opd => some (ss.setReg reg (ss.do_equals id reg opd))

/-- src `SymbolicState::evaluate`: fold the whole program through the
symbolic step, instruction by instruction. -/
def SymbolicState.evaluate (ss : SymbolicState) : List Operation → Option SymbolicState
  | [] => some ss
  | op :: rest =>
    match ss.evalOp op with
    | none => none
    | some ss2 => SymbolicState.evaluate { ss2 with pc := ss2.pc + 1 } rest

/-- src `compute_symbolic`: run the forward pass from the default
symbolic state and extract the constraint vector of the breadcrumb
stored for value 0 of register Z.  `none` models both the
symbolic-evaluation panic and the `panic!` when no entry for 0 exists. -/
def compute_symbolic (prog : List Operation) : Option (List (Option Bool)) :=
  match SymbolicState.evaluate {} prog with
  | none => none
  | some ss =>
    match (ss.getReg .Z).find 0 with
    | some crumb => some crumb.get_constraint
    | none => none

/-- src `find_answer`: run the constrained backward search from the
default state and return the consumed digits (with explicit fuel; the
Rust code's recursion depth is bounded by the program length). -/
def find_answer (prog : List Operation) (constraint : List (Option Bool))
    (is_descending : Bool) (fuel : Nat) : Option (List Int) :=
  match execute (constrainedEnvironment constraint is_descending) prog fuel {} with
  | .ok s => some s.inputs
  | _ => none

/-- Whether a lattice value pins the comparison to a unique boolean. -/
def SymbolicBoolean.pinned (u : SymbolicBoolean) : Bool :=
  u.get_single.isSome

/-- Look up a key in an association list of breadcrumbs (the semantics
of the Rust `HashMap` lookups). -/
def findEntry (l : List (Int × BreadCrumb)) (k : Int) : Option BreadCrumb :=
  (l.find? (fun p => p.1 == k)).map (·.2)

/-- The breadcrumbs contributed to result value `k` by the pairs of a
cross build, in iteration order. -/
def crossContribs (left right : SymbolicValue) (val : Int → Int → Int)
    (crumb : Int → BreadCrumb → Int → BreadCrumb → BreadCrumb) (k : Int) : List BreadCrumb :=
  (allPairs left.values right.values).filterMap
    (fun p => if val p.1.1 p.2.1 = k then some (crumb p.1.1 p.1.2 p.2.1 p.2.2) else none)

/-- Merge the breadcrumbs that landed on the same result value, left to
right, with `BreadCrumb::or`; `none` when there is no contribution,
i.e. the value is unreachable. -/
def orMergeAll : List BreadCrumb → Option BreadCrumb
  | [] => none
  | c :: cs => some (cs.foldl BreadCrumb.or c)

/-- Stated from the claim's words (C7), to be compared with the
source-derived `multiplyCrumb`: if exactly one side's value is zero the
combined breadcrumb is (a copy of) the zero side's breadcrumb only; if
both are zero it is the `or` of the two; otherwise the `and`. -/
def multiplySpecCrumb (lv : Int) (lc : BreadCrumb) (rv : Int) (rc : BreadCrumb) : BreadCrumb :=
  if lv = 0 ∧ rv ≠ 0 then lc
  else if rv = 0 ∧ lv ≠ 0 then rc
  else if lv = 0 ∧ rv = 0 then lc.or rc
  else lc.and rc

/-- The abstraction relation of the forward pass: every register's
concrete value is a key of its symbolic value. -/
def absState (s : State) (ss : SymbolicState) : Prop :=
  ∀ r : Register, s.getReg r ∈ (ss.getReg r).keys

/-- The numbering discipline established by the parser
(src `Operation::parse`): walking the instruction list, `Input` ids and
`Equal` ids each count up from the given starting values in appearance
order. -/
def numberedFrom : Nat → Nat → List Operation → Bool
  | _, _, [] => true
  | ni, ne, op :: rest =>
    match op with
    | .Input id _ => id == ni && numberedFrom (ni + 1) ne rest
    | .Equal id _ _ => id == ne && numberedFrom ni (ne + 1) rest
    | _ => numberedFrom ni ne rest

/-- A program is well formed when its `Input` ids are 0,1,2,... in
appearance order and likewise (independently) its `Equal` ids — exactly
what `Operation::parse` produces. -/
def wellFormed (prog : List Operation) : Prop :=
  numberedFrom 0 0 prog = true

/-- A breadcrumb is satisfied by an assignment `o` of outcomes to
comparison ids when every position is either unconstrained or pinned to
the assigned outcome. -/
def satBC (o : Nat → Bool) (bc : BreadCrumb) : Prop :=
  ∀ i : Nat, bc.get i = .ANY ∨ bc.get i = (if o i then .TRUE else .FALSE)

/-- All breadcrumbs of a symbolic value fit within the first `n`
comparison ids. -/
def entriesLen (n : Nat) (sv : SymbolicValue) : Prop :=
  ∀ p ∈ sv.values, p.2.crumbs.length ≤ n

/-- The refined abstraction relation used for the necessity argument:
per register, all breadcrumbs mention only already-executed comparisons,
and the entry of the concrete value is satisfied by the outcomes `o` of
the run so far. -/
def symAbs (o : Nat → Bool) (n : Nat) (s : State) (ss : SymbolicState) : Prop :=
  ∀ r : Register, entriesLen n (ss.getReg r) ∧
    ∃ bc, (ss.getReg r).find (s.getReg r) = some bc ∧ satBC o bc

/-- A constraint vector is compatible with an outcome assignment when
every pinned position agrees with it. -/
def compatible (c : List (Option Bool)) (o : Nat → Bool) : Prop :=
  ∀ id b, c.getD id none = some b → o id = b

/-- The single branch of the constrained search that follows a fixed
digit list: the digit feed of the simple environment combined with the
pruning and acceptance tests of the constrained environment. -/
def branchEnvironment (constraint : List (Option Bool)) (digits : List Int) : Environment where
  get_input := (simpleEnvironment digits).get_input
  should_abandon := constrainedAbandon constraint
  can_finish s := s.getReg .Z == 0

/-- Lexicographic (equivalently, for equal lengths, numeric) order on
digit sequences. -/
def lexLE (a b : List Int) : Prop :=
  List.Lex (· < ·) a b ∨ a = b

/-! ## Pointwise characterization of breadcrumb combination -/

theorem SymbolicBoolean.and_any_left (b : SymbolicBoolean) : SymbolicBoolean.and .ANY b = b := by
  cases b <;> decide

theorem SymbolicBoolean.and_any_right (a : SymbolicBoolean) : a.and .ANY = a := by
  cases a <;> decide

theorem SymbolicBoolean.or_any_left (b : SymbolicBoolean) : SymbolicBoolean.or .ANY b = .ANY := by
  cases b <;> decide

theorem SymbolicBoolean.or_any_right (a : SymbolicBoolean) : a.or .ANY = .ANY := by
  cases a <;> decide

theorem andLists_getD (xs : List SymbolicBoolean) :
    ∀ (ys : List SymbolicBoolean) (i : Nat),
      (andLists xs ys).getD i .ANY = SymbolicBoolean.and (xs.getD i .ANY) (ys.getD i .ANY) := by
  induction xs with
  | nil =>
    intro ys i
    simp [andLists, List.getD, SymbolicBoolean.and_any_left]
  | cons a as_ ih =>
    intro ys i
    cases ys with
    | nil =>
      cases i with
      | zero => simp [andLists, List.getD, SymbolicBoolean.and_any_right]
      | succ j => simpa [andLists, List.getD] using ih [] j
    | cons b bs =>
      cases i with
      | zero => simp [andLists, List.getD]
      | succ j => simpa [andLists, List.getD] using ih bs j

theorem orLists_getD (xs : List SymbolicBoolean) :
    ∀ (ys : List SymbolicBoolean) (i : Nat),
      (orLists xs ys).getD i .ANY = SymbolicBoolean.or (xs.getD i .ANY) (ys.getD i .ANY) := by
  induction xs with
  | nil =>
    intro ys
    induction ys with
    | nil => intro i; cases i <;> simp [orLists, List.getD, SymbolicBoolean.or_any_left]
    | cons b bs ih =>
      intro i
      cases i with
      | zero => simp [orLists, List.getD]
      | succ j => simpa [orLists, List.getD] using ih j
  | cons a as_ ih =>
    intro ys i
    cases ys with
    | nil =>
      cases i with
      | zero =>
        simp [orLists, List.getD, SymbolicBoolean.or_any_left, SymbolicBoolean.or_any_right]
      | succ j => simpa [orLists, List.getD] using ih [] j
    | cons b bs =>
      cases i with
      | zero => simp [orLists, List.getD]
      | succ j => simpa [orLists, List.getD] using ih bs j

theorem andLists_length (xs : List SymbolicBoolean) :
    ∀ ys : List SymbolicBoolean, (andLists xs ys).length = max xs.length ys.length := by
  induction xs with
  | nil => intro ys; simp [andLists]
  | cons a as_ ih =>
    intro ys
    cases ys with
    | nil => simpa [andLists] using ih []
    | cons b bs => simp [andLists, ih bs]; omega

theorem orLists_length (xs : List SymbolicBoolean) :
    ∀ ys : List SymbolicBoolean, (orLists xs ys).length = max xs.length ys.length := by
  induction xs with
  | nil => intro ys; simp [orLists]
  | cons a as_ ih =>
    intro ys
    cases ys with
    | nil => simpa [orLists] using ih []
    | cons b bs => simp [orLists, ih bs]; omega

theorem BreadCrumb.get_and (a b : BreadCrumb) (i : Nat) :
    (a.and b).get i = (a.get i).and (b.get i) :=
  andLists_getD a.crumbs b.crumbs i

theorem BreadCrumb.get_or (a b : BreadCrumb) (i : Nat) :
    (a.or b).get i = (a.get i).or (b.get i) :=
  orLists_getD a.crumbs b.crumbs i

/-- C5.  Lattice laws of `SymbolicBoolean`: `or` and `and` are
commutative and idempotent, `ANY` is the identity of `and`, `INVALID`
the identity of `or`; `and` of distinct non-`ANY` values is `INVALID`
and `or` of distinct non-`INVALID` values is `ANY`. -/
theorem claim_C5 (a b : SymbolicBoolean) :
    a.or b = b.or a ∧ a.and b = b.and a ∧ a.or a = a ∧ a.and a = a ∧
    SymbolicBoolean.and .ANY a = a ∧ SymbolicBoolean.or .INVALID a = a ∧
    (a ≠ b → a ≠ .ANY → b ≠ .ANY → a.and b = .INVALID) ∧
    (a ≠ b → a ≠ .INVALID → b ≠ .INVALID → a.or b = .ANY) := by
  cases a <;> cases b <;> decide

theorem claim_C5_witness :
    SymbolicBoolean.and .TRUE .FALSE = .INVALID ∧
    SymbolicBoolean.or .TRUE .FALSE = .ANY :=
  ⟨(claim_C5 .TRUE .FALSE).2.2.2.2.2.2.1 (by decide) (by decide) (by decide),
   (claim_C5 .TRUE .FALSE).2.2.2.2.2.2.2 (by decide) (by decide) (by decide)⟩

/-- C6 counterexample.  `BreadCrumb::or` of `[TRUE]` and `[INVALID]`
pins position 0 to `TRUE` even though the two inputs did not agree on a
pinned value there (`INVALID` acts as the identity of the lattice `or`),
so the claim that `or` yields a pinned value only where both inputs
already agreed on that pinned value is false. -/
theorem claim_C6_counterexample :
    ((⟨[.TRUE]⟩ : BreadCrumb).or ⟨[.INVALID]⟩).get 0 = .TRUE ∧
    ((⟨[.TRUE]⟩ : BreadCrumb).get 0).pinned = true ∧
    (⟨[.TRUE]⟩ : BreadCrumb).get 0 ≠ (⟨[.INVALID]⟩ : BreadCrumb).get 0 := by
  decide

/-- C6 (amended).  `BreadCrumb::and` at every position keeps the value
of `a` wherever `b` is (explicitly or implicitly) `ANY`, is `INVALID`
wherever both sides are pinned and disagree, and never silently loses a
pinned position of `a` (the result there is that pin or `INVALID`).
`BreadCrumb::or` yields a pinned value at a position only when both
inputs agreed on that pinned value there, or when one input has that
pinned value and the other is `INVALID`.  Both treat positions past
either vector's end as `ANY` (they combine position-wise on the `ANY`-
padded vectors) and produce a result of length the maximum of the two
input lengths. -/
theorem claim_C6 (a b : BreadCrumb) (i : Nat) :
    (a.and b).get i = (a.get i).and (b.get i) ∧
    (a.or b).get i = (a.get i).or (b.get i) ∧
    (b.get i = .ANY → (a.and b).get i = a.get i) ∧
    ((a.get i).pinned = true → (b.get i).pinned = true → a.get i ≠ b.get i →
      (a.and b).get i = .INVALID) ∧
    ((a.get i).pinned = true → (a.and b).get i = a.get i ∨ (a.and b).get i = .INVALID) ∧
    (((a.or b).get i).pinned = true →
      (a.get i = b.get i) ∨
      (a.get i = (a.or b).get i ∧ b.get i = .INVALID) ∨
      (b.get i = (a.or b).get i ∧ a.get i = .INVALID)) ∧
    (a.and b).crumbs.length = max a.crumbs.length b.crumbs.length ∧
    (a.or b).crumbs.length = max a.crumbs.length b.crumbs.length := by
  refine ⟨BreadCrumb.get_and a b i, BreadCrumb.get_or a b i, ?_, ?_, ?_, ?_,
    andLists_length a.crumbs b.crumbs, orLists_length a.crumbs b.crumbs⟩
  · intro hb
    rw [BreadCrumb.get_and, hb, SymbolicBoolean.and_any_right]
  · intro ha hb hne
    rw [BreadCrumb.get_and]
    revert ha hb hne
    cases a.get i <;> cases b.get i <;> decide
  · intro ha
    rw [BreadCrumb.get_and]
    revert ha
    cases a.get i <;> cases b.get i <;> decide
  · intro hp
    rw [BreadCrumb.get_or] at hp ⊢
    revert hp
    cases a.get i <;> cases b.get i <;> decide

theorem claim_C6_witness :
    ((⟨[.TRUE, .FALSE]⟩ : BreadCrumb).and ⟨[.ANY]⟩).get 0 = .TRUE ∧
    ((⟨[.TRUE, .FALSE]⟩ : BreadCrumb).and ⟨[.ANY]⟩).crumbs.length = 2 := by
  have h := claim_C6 ⟨[.TRUE, .FALSE]⟩ ⟨[.ANY]⟩ 0
  exact ⟨h.2.2.1 (by decide), by simpa using h.2.2.2.2.2.2.1⟩

/-- C10.  `should_abandon` of the constrained environment treats short
constraint vectors as unconstrained: an `Equal` whose comparison id is
not below the constraint vector's length never triggers a prune, and a
non-`Equal` instruction never triggers a prune at all. -/
theorem claim_C10 (c : List (Option Bool)) (op : Operation) (result : Int) :
    (∀ id reg opd, op = .Equal id reg opd → c.length ≤ id →
      constrainedAbandon c op result = false) ∧
    ((∀ id reg opd, op ≠ .Equal id reg opd) → constrainedAbandon c op result = false) := by
  constructor
  · rintro id reg opd rfl hlen
    simp [constrainedAbandon, List.getD_eq_getElem?_getD, List.getElem?_eq_none hlen]
  · intro hne
    cases op with
    | Equal id reg opd => exact absurd rfl (hne id reg opd)
    | Input id reg => rfl
    | Add reg opd => rfl
    | Multiply reg opd => rfl
    | Divide reg opd => rfl
    | Modulo reg opd => rfl

theorem claim_C10_witness :
    constrainedAbandon [some true] (.Equal 5 .W (.Value 0)) 0 = false ∧
    constrainedAbandon [some true] (.Add .W (.Value 0)) 0 = false :=
  ⟨(claim_C10 [some true] (.Equal 5 .W (.Value 0)) 0).1 5 .W (.Value 0) rfl (by decide),
   (claim_C10 [some true] (.Add .W (.Value 0)) 0).2 (by intro id reg opd h; cases h)⟩

/-! ## Error handling (C4) and pruning (C8) -/

/-- C4 counterexample.  A `Divide` whose operand evaluates to zero does
not fail this branch with a recoverable runtime error: the Rust `/`
panics, aborting the whole program (modelled `crash`, which is distinct
from the recoverable `err`); and a `Modulo` whose left operand is
negative does not fail at all: `-5 % 3` succeeds with the Rust
remainder `-2`. -/
theorem claim_C4_counterexample :
    execute (simpleEnvironment []) [.Divide .W (.Value 0)] 5 {} = .crash "divide by zero" ∧
    execute (simpleEnvironment []) [.Add .W (.Value (-5)), .Modulo .W (.Value 3)] 5 {} =
      .ok { w := -2, pc := 2 } := by
  constructor <;> rfl

/-- C4 (amended).  A `Divide` or `Modulo` instruction whose operand
evaluates to zero causes a Rust panic that aborts the entire execution:
the panic propagates through the input-candidate loop (no sibling
digits are explored) instead of triggering a recoverable branch
failure.  A `Modulo` whose operand is nonzero always succeeds at that
instruction — including zero or negative left operands and negative
right operands — continuing with the truncated Rust remainder. -/
theorem claim_C4 (env : Environment) (prog : List Operation) (fuel : Nat) (s : State) :
    (∀ (reg : Register) (opd : Operand) (h : s.pc < prog.length),
      prog[s.pc] = .Divide reg opd → s.value opd = 0 →
      execute env prog (fuel + 1) s = .crash "divide by zero") ∧
    (∀ (reg : Register) (opd : Operand) (h : s.pc < prog.length),
      prog[s.pc] = .Modulo reg opd → s.value opd = 0 →
      execute env prog (fuel + 1) s = .crash "divide by zero") ∧
    (∀ (runChild : Int → RunResult) (d : Int) (rest : List Int) (m : String),
      runChild d = .crash m → tryList runChild (d :: rest) = .crash m) ∧
    (∀ (reg : Register) (opd : Operand) (h : s.pc < prog.length),
      prog[s.pc] = .Modulo reg opd → s.value opd ≠ 0 →
      execute env prog (fuel + 1) s =
        if env.should_abandon (.Modulo reg opd) (Int.tmod (s.getReg reg) (s.value opd)) then
          .err "abandoned"
        else execute env prog fuel
          { s.setReg reg (Int.tmod (s.getReg reg) (s.value opd)) with pc := s.pc + 1 }) := by
  refine ⟨?_, ?_, ?_, ?_⟩
  · intro reg opd h hop hzero
    simp only [execute, dif_pos h]
    rw [hop]
    simp [stepResult, hzero]
  · intro reg opd h hop hzero
    simp only [execute, dif_pos h]
    rw [hop]
    simp [stepResult, hzero]
  · intro runChild d rest m hcrash
    simp [tryList, hcrash]
  · intro reg opd h hop hnz
    simp only [execute, dif_pos h]
    rw [hop]
    simp [stepResult, hnz, Operation.get_register]

theorem claim_C4_witness :
    execute (simpleEnvironment []) [.Divide .X (.Value 0)] 3 {} = .crash "divide by zero" ∧
    tryList (fun _ => .crash "boom") [4, 5] = .crash "boom" ∧
    execute (simpleEnvironment []) [.Modulo .W (.Value (-3))] 3 { w := -7 } =
      execute (simpleEnvironment []) [.Modulo .W (.Value (-3))] 2 { w := -1, pc := 1 } := by
  refine ⟨?_, ?_, ?_⟩
  · exact (claim_C4 (simpleEnvironment []) [.Divide .X (.Value 0)] 2 {}).1 .X (.Value 0)
      (by decide) rfl rfl
  · exact (claim_C4 (simpleEnvironment []) [] 0 {}).2.2.1 (fun _ => .crash "boom") 4 [5]
      "boom" rfl
  · have h := (claim_C4 (simpleEnvironment []) [.Modulo .W (.Value (-3))] 2
      { w := -7 }).2.2.2 .W (.Value (-3)) (by decide) rfl (by decide)
    simpa using h

/-- C8.  Pruning: when the executor under the constrained environment
evaluates an `Equal` whose comparison id is pinned to `required` in the
constraint vector and the concrete outcome disagrees, that branch
returns the recoverable failure immediately — the result is `err` for
every program agreeing at that pc and every fuel, so no later
instruction is examined and no further digit is consumed — and the
enclosing candidate loop (the most recent `Input` choice point) moves
on to its next digit. -/
theorem claim_C8 (c : List (Option Bool)) (desc : Bool) :
    (∀ (prog : List Operation) (fuel : Nat) (s : State) (id : Nat) (reg : Register)
      (opd : Operand) (required : Bool) (h : s.pc < prog.length),
      prog[s.pc] = .Equal id reg opd →
      c.getD id none = some required →
      required ≠ decide (s.getReg reg = s.value opd) →
      execute (constrainedEnvironment c desc) prog (fuel + 1) s = .err "abandoned") ∧
    (∀ (runChild : Int → RunResult) (d : Int) (rest : List Int) (m : String),
      runChild d = .err m → tryList runChild (d :: rest) = tryList runChild rest) := by
  constructor
  · intro prog fuel s id reg opd required h hop hc hdis
    simp only [execute, dif_pos h]
    rw [hop]
    have habandon :
        (constrainedEnvironment c desc).should_abandon (.Equal id reg opd)
          (if s.getReg reg = s.value opd then 1 else 0) = true := by
      simp only [constrainedEnvironment, constrainedAbandon, hc]
      by_cases heq : s.getReg reg = s.value opd <;> simp [heq] at hdis ⊢ <;>
        simpa using hdis
    simp [stepResult, habandon]
  · intro runChild d rest m herr
    simp [tryList, herr]

theorem claim_C8_witness :
    execute (constrainedEnvironment [some true] true) [.Equal 0 .W (.Value 1)] 1 {} =
      .err "abandoned" ∧
    tryList (fun _ => .err "x") [(1 : Int)] = tryList (fun _ => .err "x") [] :=
  ⟨(claim_C8 [some true] true).1 [.Equal 0 .W (.Value 1)] 0 {} 0 .W (.Value 1) true
      (by decide) rfl rfl (by decide),
   (claim_C8 [some true] true).2 (fun _ => .err "x") 1 [] "x" rfl⟩
/-! ## Characterization of the cross-build result maps (C7, C9) -/

theorem findEntry_cons (a : Int × BreadCrumb) (l : List (Int × BreadCrumb)) (k : Int) :
    findEntry (a :: l) k = if a.1 = k then some a.2 else findEntry l k := by
  by_cases h : a.1 = k
  · simp [findEntry, List.find?, h]
  · have hb : (a.1 == k) = false := by simpa using h
    simp [findEntry, List.find?, hb, h]

theorem insertOr_cons_same (k0 : Int) (c0 : BreadCrumb) (tl : List (Int × BreadCrumb))
    (c : BreadCrumb) : insertOr ((k0, c0) :: tl) k0 c = (k0, c0.or c) :: tl := by
  simp [insertOr]

theorem insertOr_cons_other (k0 : Int) (c0 : BreadCrumb) (tl : List (Int × BreadCrumb))
    (k : Int) (c : BreadCrumb) (h : k0 ≠ k) :
    insertOr ((k0, c0) :: tl) k c = (k0, c0) :: insertOr tl k c := by
  simp [insertOr, h]

theorem findEntry_insertOr_same (k : Int) (c : BreadCrumb) :
    ∀ l : List (Int × BreadCrumb),
      findEntry (insertOr l k c) k =
        match findEntry l k with
        | some c0 => some (c0.or c)
        | none => some c := by
  intro l
  induction l with
  | nil => simp [insertOr, findEntry, List.find?]
  | cons hd tl ih =>
    rcases hd with ⟨k0, c0⟩
    by_cases hk : k0 = k
    · subst hk
      rw [insertOr_cons_same, findEntry_cons, findEntry_cons]
      simp
    · rw [insertOr_cons_other k0 c0 tl k c hk, findEntry_cons, findEntry_cons]
      simp only [hk, if_false]
      exact ih

theorem findEntry_insertOr_other (k k' : Int) (c : BreadCrumb) (hne : k' ≠ k) :
    ∀ l : List (Int × BreadCrumb), findEntry (insertOr l k' c) k = findEntry l k := by
  intro l
  induction l with
  | nil =>
    have hb : (k' == k) = false := by simpa using hne
    simp [insertOr, findEntry, List.find?, hb]
  | cons hd tl ih =>
    rcases hd with ⟨k0, c0⟩
    by_cases hk : k0 = k'
    · subst hk
      rw [insertOr_cons_same, findEntry_cons, findEntry_cons]
      simp [hne]
    · rw [insertOr_cons_other k0 c0 tl k' c hk, findEntry_cons, findEntry_cons]
      by_cases hdk : k0 = k
      · simp [hdk]
      · simp only [hdk, if_false]
        exact ih

theorem findEntry_foldl_insertOr {α : Type} (v : α → Int) (cb : α → BreadCrumb) :
    ∀ (ps : List α) (acc : List (Int × BreadCrumb)) (k : Int),
      findEntry (ps.foldl (fun a p => insertOr a (v p) (cb p)) acc) k =
        match findEntry acc k with
        | some c0 =>
          some ((ps.filterMap (fun p => if v p = k then some (cb p) else none)).foldl
            BreadCrumb.or c0)
        | none => orMergeAll (ps.filterMap (fun p => if v p = k then some (cb p) else none)) := by
  intro ps
  induction ps with
  | nil =>
    intro acc k
    cases h : findEntry acc k <;> simp [h, orMergeAll]
  | cons p ps ih =>
    intro acc k
    by_cases hpk : v p = k
    · subst hpk
      have hins := findEntry_insertOr_same (v p) (cb p) acc
      cases h : findEntry acc (v p) with
      | some c0 =>
        rw [h] at hins
        simp only [List.foldl_cons, ih, hins]
        simp [List.filterMap_cons]
      | none =>
        rw [h] at hins
        simp only [List.foldl_cons, ih, hins]
        simp [List.filterMap_cons, orMergeAll]
    · have hins := findEntry_insertOr_other k (v p) (cb p) (fun hh => hpk hh) acc
      simp only [List.foldl_cons, ih, hins, List.filterMap_cons, if_neg hpk]

theorem find_crossBuild (left right : SymbolicValue) (val : Int → Int → Int)
    (crumb : Int → BreadCrumb → Int → BreadCrumb → BreadCrumb) (k : Int) :
    (crossBuild left right val crumb).find k =
      orMergeAll (crossContribs left right val crumb k) := by
  have h := findEntry_foldl_insertOr (fun p => val p.1.1 p.2.1)
    (fun p => crumb p.1.1 p.1.2 p.2.1 p.2.2) (allPairs left.values right.values) [] k
  have hnil : findEntry [] k = none := rfl
  rw [hnil] at h
  exact h

theorem mem_allPairs {xs ys : List (Int × BreadCrumb)}
    {p : (Int × BreadCrumb) × (Int × BreadCrumb)} :
    p ∈ allPairs xs ys ↔ p.1 ∈ xs ∧ p.2 ∈ ys := by
  cases p with
  | mk a b =>
    constructor
    · intro h
      rcases List.mem_flatMap.mp h with ⟨a0, ha0, hmem⟩
      rcases List.mem_map.mp hmem with ⟨b0, hb0, heq⟩
      cases heq
      exact ⟨ha0, hb0⟩
    · rintro ⟨ha, hb⟩
      exact List.mem_flatMap.mpr ⟨a, ha, List.mem_map.mpr ⟨b, hb, rfl⟩⟩

theorem mem_keys_iff_findEntry {l : List (Int × BreadCrumb)} {k : Int} :
    k ∈ l.map (·.1) ↔ findEntry l k ≠ none := by
  constructor
  · intro hmem hnone
    rcases List.mem_map.mp hmem with ⟨p, hp, hfst⟩
    have h1 : l.find? (fun q => q.1 == k) = none := by
      cases hf : l.find? (fun q => q.1 == k) with
      | none => rfl
      | some q => simp [findEntry, hf] at hnone
    have h2 := List.find?_eq_none.mp h1 p hp
    simp [hfst] at h2
  · intro hne
    cases hfind : l.find? (fun p => p.1 == k) with
    | none => exact absurd (by simp [findEntry, hfind]) hne
    | some p =>
      have hp := List.find?_some hfind
      have hmem := List.mem_of_find?_eq_some hfind
      exact List.mem_map.mpr ⟨p, hmem, by simpa using hp⟩

theorem crossBuild_mem_keys (left right : SymbolicValue) (val : Int → Int → Int)
    (crumb : Int → BreadCrumb → Int → BreadCrumb → BreadCrumb) (k : Int) :
    k ∈ (crossBuild left right val crumb).keys ↔
      ∃ lv rv, lv ∈ left.keys ∧ rv ∈ right.keys ∧ val lv rv = k := by
  have hfind := find_crossBuild left right val crumb k
  constructor
  · intro hmem
    have hne : findEntry (crossBuild left right val crumb).values k ≠ none :=
      mem_keys_iff_findEntry.mp hmem
    have hne2 : orMergeAll (crossContribs left right val crumb k) ≠ none := by
      rw [← hfind]
      exact hne
    rcases hc : crossContribs left right val crumb k with _ | ⟨c, cs⟩
    · rw [hc] at hne2
      simp [orMergeAll] at hne2
    · have hcmem : c ∈ crossContribs left right val crumb k := by
        rw [hc]
        exact List.mem_cons_self c cs
      rcases List.mem_filterMap.mp hcmem with ⟨p, hp, hval⟩
      have hval' : val p.1.1 p.2.1 = k := by
        by_cases hvk : val p.1.1 p.2.1 = k
        · exact hvk
        · simp [hvk] at hval
      rcases mem_allPairs.mp hp with ⟨hl, hr⟩
      exact ⟨p.1.1, p.2.1, List.mem_map.mpr ⟨p.1, hl, rfl⟩,
        List.mem_map.mpr ⟨p.2, hr, rfl⟩, hval'⟩
  · rintro ⟨lv, rv, hlv, hrv, hval⟩
    rcases List.mem_map.mp hlv with ⟨pl, hpl, hfl⟩
    rcases List.mem_map.mp hrv with ⟨pr, hpr, hfr⟩
    apply mem_keys_iff_findEntry.mpr
    show findEntry (crossBuild left right val crumb).values k ≠ none
    intro hnone
    have hfind2 : orMergeAll (crossContribs left right val crumb k) = none := by
      rw [← hfind]
      exact hnone
    have hcontrib : (crumb pl.1 pl.2 pr.1 pr.2) ∈ crossContribs left right val crumb k := by
      refine List.mem_filterMap.mpr ⟨(pl, pr), mem_allPairs.mpr ⟨hpl, hpr⟩, ?_⟩
      simp [hfl, hfr, hval]
    rcases hc : crossContribs left right val crumb k with _ | ⟨c, cs⟩
    · rw [hc] at hcontrib
      simp at hcontrib
    · rw [hc] at hfind2
      simp [orMergeAll] at hfind2

theorem SymbolicValue.find_eq_findEntry (sv : SymbolicValue) (k : Int) :
    sv.find k = findEntry sv.values k := rfl

theorem multiplyCrumb_eq_spec (lv : Int) (lc : BreadCrumb) (rv : Int) (rc : BreadCrumb) :
    multiplyCrumb lv lc rv rc = multiplySpecCrumb lv lc rv rc := by
  unfold multiplyCrumb multiplySpecCrumb
  by_cases hl : lv = 0 <;> by_cases hr : rv = 0 <;> simp [hl, hr]

/-- C7.  The symbolic Multiply result: for every result value, the
stored breadcrumb is the `or`-merge (in pair iteration order) of the
contributions of all (left value, right value) pairs with that product,
where each pair contributes exactly the breadcrumb the claim describes:
the zero side's breadcrumb alone when exactly one side is zero, the
`or` of both when both are zero, and the `and` of both otherwise. -/
theorem claim_C7 (ss : SymbolicState) (reg : Register) (opd : Operand) (k : Int) :
    (ss.do_multiply reg opd).find k =
      orMergeAll (crossContribs (ss.getReg reg) (ss.get_value opd) (· * ·)
        multiplySpecCrumb k) := by
  rw [SymbolicState.do_multiply, find_crossBuild]
  have hfun : multiplyCrumb = multiplySpecCrumb := by
    funext lv lc rv rc
    exact multiplyCrumb_eq_spec lv lc rv rc
  rw [hfun]

theorem findEntry_map_stamp (f : Int → BreadCrumb → BreadCrumb) :
    ∀ (l : List (Int × BreadCrumb)) (k : Int),
      findEntry (l.map (fun p => (p.1, f p.1 p.2))) k = (findEntry l k).map (f k) := by
  intro l
  induction l with
  | nil => intro k; simp [findEntry]
  | cons hd tl ih =>
    intro k
    rcases hd with ⟨a, b⟩
    rw [List.map_cons, findEntry_cons, findEntry_cons]
    by_cases h : a = k
    · subst h
      simp
    · simp only [h, if_false]
      exact ih k

/-- C9.  The symbolic Equal result: its key set is contained in {0, 1},
key 1 is present iff some left/right value pair is equal and key 0 iff
some pair differs; and the breadcrumb stored at each key is the
`or`-merge of the `and`-combined breadcrumbs of the contributing pairs,
with the instruction's own comparison id then stamped (overwriting that
position) to TRUE at key 1 and FALSE at key 0. -/
theorem claim_C9 (ss : SymbolicState) (id : Nat) (reg : Register) (opd : Operand) (k : Int) :
    (k ∈ (ss.do_equals id reg opd).keys → k = 0 ∨ k = 1) ∧
    ((1 : Int) ∈ (ss.do_equals id reg opd).keys ↔
      ∃ v, v ∈ (ss.getReg reg).keys ∧ v ∈ (ss.get_value opd).keys) ∧
    ((0 : Int) ∈ (ss.do_equals id reg opd).keys ↔
      ∃ lv rv, lv ∈ (ss.getReg reg).keys ∧ rv ∈ (ss.get_value opd).keys ∧ lv ≠ rv) ∧
    (ss.do_equals id reg opd).find k =
      (orMergeAll (crossContribs (ss.getReg reg) (ss.get_value opd)
        (fun lv rv => if lv = rv then 1 else 0) (fun _ lc _ rc => lc.and rc) k)).map
        (fun bc => bc.set id (k == 1)) := by
  have hkeys : (ss.do_equals id reg opd).keys =
      (crossBuild (ss.getReg reg) (ss.get_value opd)
        (fun lv rv => if lv = rv then 1 else 0) (fun _ lc _ rc => lc.and rc)).keys := by
    simp [SymbolicState.do_equals, SymbolicValue.keys, List.map_map, Function.comp]
  refine ⟨?_, ?_, ?_, ?_⟩
  · intro hmem
    rw [hkeys] at hmem
    rcases (crossBuild_mem_keys _ _ _ _ k).mp hmem with ⟨lv, rv, _, _, hval⟩
    by_cases heq : lv = rv
    · right
      rw [if_pos heq] at hval
      exact hval.symm
    · left
      rw [if_neg heq] at hval
      exact hval.symm
  · rw [hkeys, crossBuild_mem_keys]
    constructor
    · rintro ⟨lv, rv, hl, hr, hval⟩
      by_cases heq : lv = rv
      · exact ⟨lv, hl, heq ▸ hr⟩
      · rw [if_neg heq] at hval
        exact absurd hval (by decide)
    · rintro ⟨v, hl, hr⟩
      exact ⟨v, v, hl, hr, if_pos rfl⟩
  · rw [hkeys, crossBuild_mem_keys]
    constructor
    · rintro ⟨lv, rv, hl, hr, hval⟩
      by_cases heq : lv = rv
      · rw [if_pos heq] at hval
        exact absurd hval (by decide)
      · exact ⟨lv, rv, hl, hr, heq⟩
    · rintro ⟨lv, rv, hl, hr, hne⟩
      exact ⟨lv, rv, hl, hr, if_neg hne⟩
  · show findEntry _ k = _
    rw [show (ss.do_equals id reg opd).values =
        (crossBuild (ss.getReg reg) (ss.get_value opd)
          (fun lv rv => if lv = rv then 1 else 0)
          (fun _ lc _ rc => lc.and rc)).values.map
          (fun p => (p.1, p.2.set id (p.1 == 1))) from rfl]
    rw [findEntry_map_stamp (fun a c => c.set id (a == 1))]
    rw [← SymbolicValue.find_eq_findEntry, find_crossBuild]

theorem claim_C9_witness :
    ((1 : Int) = 0 ∨ (1 : Int) = 1) ∧
    (∃ v : Int, v ∈ (SymbolicState.getReg {} .W).keys ∧
      v ∈ (SymbolicState.get_value {} (.Value 0)).keys) :=
  ⟨(claim_C9 {} 0 .W (.Value 0) 1).1 (by decide),
   (claim_C9 {} 0 .W (.Value 0) 1).2.1.mp (by decide)⟩

/-! ## Basic executor lemmas -/

theorem State.getReg_setReg (s : State) (r r' : Register) (v : Int) :
    (s.setReg r v).getReg r' = if r' = r then v else s.getReg r' := by
  cases r <;> cases r' <;> simp [State.setReg, State.getReg]

theorem State.inputs_setReg (s : State) (r : Register) (v : Int) :
    (s.setReg r v).inputs = s.inputs := by
  cases r <;> rfl

theorem State.pc_setReg (s : State) (r : Register) (v : Int) :
    (s.setReg r v).pc = s.pc := by
  cases r <;> rfl

theorem SymbolicState.getRegSym_setReg (ss : SymbolicState) (r r' : Register) (v : SymbolicValue) :
    (ss.setReg r v).getReg r' = if r' = r then v else ss.getReg r' := by
  cases r <;> cases r' <;> simp [SymbolicState.setReg, SymbolicState.getReg]

theorem SymbolicState.getReg_setPc (ss : SymbolicState) (n : Nat) (r : Register) :
    SymbolicState.getReg { ss with pc := n } r = ss.getReg r := by
  cases r <;> rfl

theorem State.getReg_inputChild (s : State) (reg : Register) (d : Int) (r : Register) :
    (inputChild s reg d).getReg r = if r = reg then d else s.getReg r := by
  rw [show (inputChild s reg d).getReg r = (s.setReg reg d).getReg r from by
    cases r <;> rfl]
  exact State.getReg_setReg s reg r d

theorem execute_step_done (env : Environment) (prog : List Operation) (fuel : Nat) (s : State)
    (h : ¬ s.pc < prog.length) :
    execute env prog (fuel + 1) s =
      if env.can_finish s then .ok s else .err "Final state not accepted" := by
  simp [execute, h]

theorem execute_step_input (env : Environment) (prog : List Operation) (fuel : Nat) (s : State)
    (id : Nat) (reg : Register) (h : s.pc < prog.length) (hop : prog[s.pc] = .Input id reg) :
    execute env prog (fuel + 1) s =
      match tryList (fun d => execute env prog fuel (inputChild s reg d)) (env.get_input id) with
      | .ok sf => execute env prog fuel sf
      | r => r := by
  simp only [execute, dif_pos h]
  rw [hop]

theorem execute_step_arith (env : Environment) (prog : List Operation) (fuel : Nat) (s : State)
    (op : Operation) (h : s.pc < prog.length) (hop : prog[s.pc] = op)
    (hni : ∀ id reg, op ≠ .Input id reg) :
    execute env prog (fuel + 1) s =
      match stepResult s op with
      | none => .crash "divide by zero"
      | some result =>
        if env.should_abandon op result then .err "abandoned"
        else execute env prog fuel { s.setReg op.get_register result with pc := s.pc + 1 } := by
  simp only [execute, dif_pos h]
  rw [hop]
  cases op with
  | Input id reg => exact absurd rfl (hni id reg)
  | Add reg opd => rfl
  | Multiply reg opd => rfl
  | Divide reg opd => rfl
  | Modulo reg opd => rfl
  | Equal id reg opd => rfl

theorem execute_step_arith_crash (env : Environment) (prog : List Operation) (fuel : Nat)
    (s : State) (op : Operation) (h : s.pc < prog.length) (hop : prog[s.pc] = op)
    (hni : ∀ id reg, op ≠ .Input id reg) (hres : stepResult s op = none) :
    execute env prog (fuel + 1) s = .crash "divide by zero" := by
  rw [execute_step_arith env prog fuel s op h hop hni, hres]

theorem execute_step_arith_abandon (env : Environment) (prog : List Operation) (fuel : Nat)
    (s : State) (op : Operation) (result : Int) (h : s.pc < prog.length) (hop : prog[s.pc] = op)
    (hni : ∀ id reg, op ≠ .Input id reg) (hres : stepResult s op = some result)
    (hab : env.should_abandon op result = true) :
    execute env prog (fuel + 1) s = .err "abandoned" := by
  rw [execute_step_arith env prog fuel s op h hop hni, hres]
  simp [hab]

theorem execute_step_arith_continue (env : Environment) (prog : List Operation) (fuel : Nat)
    (s : State) (op : Operation) (result : Int) (h : s.pc < prog.length) (hop : prog[s.pc] = op)
    (hni : ∀ id reg, op ≠ .Input id reg) (hres : stepResult s op = some result)
    (hab : env.should_abandon op result = false) :
    execute env prog (fuel + 1) s =
      execute env prog fuel { s.setReg op.get_register result with pc := s.pc + 1 } := by
  rw [execute_step_arith env prog fuel s op h hop hni, hres]
  simp [hab]

theorem tryList_ok_split (rc : Int → RunResult) :
    ∀ (l : List Int) (sf : State), tryList rc l = .ok sf →
      ∃ l1 d l2, l = l1 ++ d :: l2 ∧ rc d = .ok sf ∧ ∀ e ∈ l1, ∃ m, rc e = .err m := by
  intro l
  induction l with
  | nil => intro sf h; simp [tryList] at h
  | cons d rest ih =>
    intro sf h
    simp only [tryList] at h
    cases hd : rc d with
    | ok s0 =>
      rw [hd] at h
      cases h
      exact ⟨[], d, rest, rfl, hd, by simp⟩
    | err m =>
      rw [hd] at h
      rcases ih sf h with ⟨l1, d0, l2, hl, hok, herr⟩
      refine ⟨d :: l1, d0, l2, by rw [hl, List.cons_append], hok, ?_⟩
      intro e he
      rcases List.mem_cons.mp he with rfl | hmem
      · exact ⟨m, hd⟩
      · exact herr e hmem
    | crash m => rw [hd] at h; cases h
    | timeout => rw [hd] at h; cases h

theorem tryList_err_all (rc : Int → RunResult) :
    ∀ (l : List Int) (m : String), tryList rc l = .err m →
      ∀ d ∈ l, ∃ m2, rc d = .err m2 := by
  intro l
  induction l with
  | nil => intro m _ d hd; simp at hd
  | cons d rest ih =>
    intro m h e he
    simp only [tryList] at h
    cases hd : rc d with
    | ok s0 => rw [hd] at h; cases h
    | err m0 =>
      rw [hd] at h
      rcases List.mem_cons.mp he with rfl | hmem
      · exact ⟨m0, hd⟩
      · exact ih m h e hmem
    | crash m0 => rw [hd] at h; cases h
    | timeout => rw [hd] at h; cases h

theorem execute_ok_pc (env : Environment) (prog : List Operation) :
    ∀ (fuel : Nat) (s t : State), execute env prog fuel s = .ok t → prog.length ≤ t.pc := by
  intro fuel
  induction fuel with
  | zero => intro s t h; simp [execute] at h
  | succ fuel ih =>
    intro s t h
    by_cases hpc : s.pc < prog.length
    · by_cases hin : ∃ id reg, prog[s.pc] = Operation.Input id reg
      · rcases hin with ⟨id, reg, hop⟩
        rw [execute_step_input env prog fuel s id reg hpc hop] at h
        cases htry : tryList (fun d => execute env prog fuel (inputChild s reg d))
            (env.get_input id) with
        | ok sf => rw [htry] at h; exact ih sf t h
        | err m => rw [htry] at h; cases h
        | crash m => rw [htry] at h; cases h
        | timeout => rw [htry] at h; cases h
      · have hni : ∀ id reg, prog[s.pc] ≠ Operation.Input id reg := by
          intro id reg heq
          exact hin ⟨id, reg, heq⟩
        cases hres : stepResult s (prog[s.pc]) with
        | none =>
          rw [execute_step_arith_crash env prog fuel s (prog[s.pc]) hpc rfl hni hres] at h
          cases h
        | some result =>
          cases hab : env.should_abandon (prog[s.pc]) result with
          | true =>
            rw [execute_step_arith_abandon env prog fuel s (prog[s.pc]) result hpc rfl hni
              hres hab] at h
            cases h
          | false =>
            rw [execute_step_arith_continue env prog fuel s (prog[s.pc]) result hpc rfl hni
              hres hab] at h
            exact ih _ t h
    · rw [execute_step_done env prog fuel s hpc] at h
      cases hfin : env.can_finish s with
      | true =>
        rw [hfin] at h
        simp at h
        subst h
        omega
      | false => rw [hfin] at h; simp at h

theorem execute_ok_can_finish (env : Environment) (prog : List Operation) :
    ∀ (fuel : Nat) (s t : State), execute env prog fuel s = .ok t →
      env.can_finish t = true := by
  intro fuel
  induction fuel with
  | zero => intro s t h; simp [execute] at h
  | succ fuel ih =>
    intro s t h
    by_cases hpc : s.pc < prog.length
    · by_cases hin : ∃ id reg, prog[s.pc] = Operation.Input id reg
      · rcases hin with ⟨id, reg, hop⟩
        rw [execute_step_input env prog fuel s id reg hpc hop] at h
        cases htry : tryList (fun d => execute env prog fuel (inputChild s reg d))
            (env.get_input id) with
        | ok sf => rw [htry] at h; exact ih sf t h
        | err m => rw [htry] at h; cases h
        | crash m => rw [htry] at h; cases h
        | timeout => rw [htry] at h; cases h
      · have hni : ∀ id reg, prog[s.pc] ≠ Operation.Input id reg := by
          intro id reg heq
          exact hin ⟨id, reg, heq⟩
        cases hres : stepResult s (prog[s.pc]) with
        | none =>
          rw [execute_step_arith_crash env prog fuel s (prog[s.pc]) hpc rfl hni hres] at h
          cases h
        | some result =>
          cases hab : env.should_abandon (prog[s.pc]) result with
          | true =>
            rw [execute_step_arith_abandon env prog fuel s (prog[s.pc]) result hpc rfl hni
              hres hab] at h
            cases h
          | false =>
            rw [execute_step_arith_continue env prog fuel s (prog[s.pc]) result hpc rfl hni
              hres hab] at h
            exact ih _ t h
    · rw [execute_step_done env prog fuel s hpc] at h
      cases hfin : env.can_finish s with
      | true =>
        rw [hfin] at h
        simp at h
        subst h
        exact hfin
      | false => rw [hfin] at h; simp at h

theorem execute_ok_inputs (env : Environment) (prog : List Operation) :
    ∀ (fuel : Nat) (s t : State), execute env prog fuel s = .ok t →
      ∃ l, t.inputs = s.inputs ++ l := by
  intro fuel
  induction fuel with
  | zero => intro s t h; simp [execute] at h
  | succ fuel ih =>
    intro s t h
    by_cases hpc : s.pc < prog.length
    · by_cases hin : ∃ id reg, prog[s.pc] = Operation.Input id reg
      · rcases hin with ⟨id, reg, hop⟩
        rw [execute_step_input env prog fuel s id reg hpc hop] at h
        cases htry : tryList (fun d => execute env prog fuel (inputChild s reg d))
            (env.get_input id) with
        | ok sf =>
          rw [htry] at h
          rcases tryList_ok_split _ _ _ htry with ⟨l1, d, l2, hsplit, hok, herr⟩
          rcases ih _ _ hok with ⟨la, hla⟩
          rcases ih _ _ h with ⟨lb, hlb⟩
          refine ⟨[d] ++ la ++ lb, ?_⟩
          rw [hlb, hla]
          simp [inputChild]
        | err m => rw [htry] at h; cases h
        | crash m => rw [htry] at h; cases h
        | timeout => rw [htry] at h; cases h
      · have hni : ∀ id reg, prog[s.pc] ≠ Operation.Input id reg := by
          intro id reg heq
          exact hin ⟨id, reg, heq⟩
        cases hres : stepResult s (prog[s.pc]) with
        | none =>
          rw [execute_step_arith_crash env prog fuel s (prog[s.pc]) hpc rfl hni hres] at h
          cases h
        | some result =>
          cases hab : env.should_abandon (prog[s.pc]) result with
          | true =>
            rw [execute_step_arith_abandon env prog fuel s (prog[s.pc]) result hpc rfl hni
              hres hab] at h
            cases h
          | false =>
            rw [execute_step_arith_continue env prog fuel s (prog[s.pc]) result hpc rfl hni
              hres hab] at h
            rcases ih _ _ h with ⟨l, hl⟩
            refine ⟨l, ?_⟩
            rw [hl]
            simp [State.inputs_setReg]
    · rw [execute_step_done env prog fuel s hpc] at h
      cases hfin : env.can_finish s with
      | true =>
        rw [hfin] at h
        simp at h
        subst h
        exact ⟨[], by simp⟩
      | false => rw [hfin] at h; simp at h

/-! ## The forward pass over-approximates concrete execution (C1) -/

theorem State.getReg_pcUpdate (s : State) (n : Nat) (r : Register) :
    State.getReg { s with pc := n } r = s.getReg r := by
  cases r <;> rfl

theorem mem_keys_literal (v : Int) : v ∈ (SymbolicValue.literal v).keys := by
  simp [SymbolicValue.literal, SymbolicValue.keys]

theorem mem_keys_do_input (d : Int) (h1 : 1 ≤ d) (h9 : d ≤ 9) :
    d ∈ SymbolicState.do_input.keys := by
  have hd : d = 1 ∨ d = 2 ∨ d = 3 ∨ d = 4 ∨ d = 5 ∨ d = 6 ∨ d = 7 ∨ d = 8 ∨ d = 9 := by omega
  rcases hd with rfl|rfl|rfl|rfl|rfl|rfl|rfl|rfl|rfl <;> decide

theorem mem_get_value (s : State) (ss : SymbolicState) (opd : Operand)
    (habs : absState s ss) : s.value opd ∈ (ss.get_value opd).keys := by
  cases opd with
  | Value v => exact mem_keys_literal v
  | Register r => simpa [State.value, SymbolicState.get_value] using habs r

theorem evaluate_cons (ss : SymbolicState) (op : Operation) (rest : List Operation)
    (ssF : SymbolicState) (h : SymbolicState.evaluate ss (op :: rest) = some ssF) :
    ∃ ss2, ss.evalOp op = some ss2 ∧
      SymbolicState.evaluate { ss2 with pc := ss2.pc + 1 } rest = some ssF := by
  simp only [SymbolicState.evaluate] at h
  cases hop : ss.evalOp op with
  | none => rw [hop] at h; cases h
  | some ss2 => rw [hop] at h; exact ⟨ss2, rfl, h⟩

theorem do_divide_some (ss : SymbolicState) (reg : Register) (opd : Operand)
    (dv : SymbolicValue) (h : ss.do_divide reg opd = some dv) :
    dv = crossBuild (ss.getReg reg) (ss.get_value opd) (fun a b => Int.tdiv a b) divModCrumb := by
  simp only [SymbolicState.do_divide] at h
  by_cases hg : (ss.getReg reg).values ≠ [] ∧ 0 ∈ (ss.get_value opd).keys
  · rw [if_pos hg] at h
    cases h
  · rw [if_neg hg] at h
    injection h with h
    exact h.symm

theorem do_modulo_some (ss : SymbolicState) (reg : Register) (opd : Operand)
    (dv : SymbolicValue) (h : ss.do_modulo reg opd = some dv) :
    dv = crossBuild (ss.getReg reg) (ss.get_value opd) (fun a b => Int.tmod a b) divModCrumb := by
  simp only [SymbolicState.do_modulo] at h
  by_cases hg : (ss.getReg reg).values ≠ [] ∧ 0 ∈ (ss.get_value opd).keys
  · rw [if_pos hg] at h
    cases h
  · rw [if_neg hg] at h
    injection h with h
    exact h.symm

theorem do_equals_keys (ss : SymbolicState) (id : Nat) (reg : Register) (opd : Operand) :
    (ss.do_equals id reg opd).keys =
      (crossBuild (ss.getReg reg) (ss.get_value opd)
        (fun lv rv => if lv = rv then 1 else 0) (fun _ lc _ rc => lc.and rc)).keys := by
  simp [SymbolicState.do_equals, SymbolicValue.keys, List.map_map, Function.comp]

theorem singleton_split {x d : Int} {l1 l2 : List Int} (h : [x] = l1 ++ d :: l2) : d = x := by
  cases l1 with
  | nil =>
    injection h with h1 _
    exact h1.symm
  | cons e l1 =>
    injection h with _ h2
    exact absurd h2.symm (by simp)

/-- The central simulation: a successful concrete run under the simple
environment lands, register by register, inside the key sets computed by
the forward symbolic pass over the instructions from the current pc. -/
theorem exec_abs (prog : List Operation) (digits : List Int)
    (hdig : ∀ d ∈ digits, 1 ≤ d ∧ d ≤ 9) :
    ∀ (fuel : Nat) (s : State) (ss ssF : SymbolicState) (t : State),
      absState s ss →
      SymbolicState.evaluate ss (prog.drop s.pc) = some ssF →
      execute (simpleEnvironment digits) prog fuel s = .ok t →
      absState t ssF := by
  intro fuel
  induction fuel with
  | zero => intro s ss ssF t _ _ h; simp [execute] at h
  | succ fuel ih =>
    intro s ss ssF t habs hev h
    by_cases hpc : s.pc < prog.length
    case neg =>
      have hdrop : prog.drop s.pc = [] := List.drop_eq_nil_of_le (le_of_not_lt hpc)
      rw [hdrop] at hev
      simp only [SymbolicState.evaluate, Option.some.injEq] at hev
      rw [execute_step_done _ prog fuel s hpc] at h
      simp only [simpleEnvironment, if_true] at h
      simp at h
      subst h
      rw [← hev]
      exact habs
    case pos =>
      cases hop : prog[s.pc] with
      | Input id reg =>
        have hdrop : prog.drop s.pc = Operation.Input id reg :: prog.drop (s.pc + 1) := by
          rw [List.drop_eq_getElem_cons hpc, hop]
        rw [hdrop] at hev
        rcases evaluate_cons _ _ _ _ hev with ⟨ss2, hevop, hevrest⟩
        have hss2 : ss2 = ss.setReg reg SymbolicState.do_input := by
          simp only [SymbolicState.evalOp, Option.some.injEq] at hevop
          exact hevop.symm
        rw [execute_step_input _ prog fuel s id reg hpc hop] at h
        cases htry : tryList (fun d => execute (simpleEnvironment digits) prog fuel
            (inputChild s reg d)) ((simpleEnvironment digits).get_input id) with
        | ok sf =>
          rw [htry] at h
          rcases tryList_ok_split _ _ _ htry with ⟨l1, d, l2, hsplit, hok, _⟩
          have hdmem : d ∈ digits := by
            by_cases hid : id < digits.length
            · have hcand : (simpleEnvironment digits).get_input id = [digits[id]] := by
                simp [simpleEnvironment, hid]
              rw [hcand] at hsplit
              rw [singleton_split hsplit]
              exact List.getElem_mem hid
            · have hcand : (simpleEnvironment digits).get_input id = [] := by
                simp [simpleEnvironment, hid]
              rw [hcand] at hsplit
              exact absurd hsplit (by simp)
          have habs2 : absState (inputChild s reg d) { ss2 with pc := ss2.pc + 1 } := by
            intro r
            rw [SymbolicState.getReg_setPc, hss2, SymbolicState.getRegSym_setReg,
              State.getReg_inputChild]
            by_cases hr : r = reg
            · rw [if_pos hr, if_pos hr]
              exact mem_keys_do_input d (hdig d hdmem).1 (hdig d hdmem).2
            · rw [if_neg hr, if_neg hr]
              exact habs r
          have hsf : absState sf ssF := by
            refine ih (inputChild s reg d) { ss2 with pc := ss2.pc + 1 } ssF sf habs2 ?_ hok
            simpa [inputChild] using hevrest
          have hpcf := execute_ok_pc _ prog fuel _ sf hok
          refine ih sf ssF ssF t hsf ?_ h
          rw [List.drop_eq_nil_of_le hpcf]
          rfl
        | err m => rw [htry] at h; cases h
        | crash m => rw [htry] at h; cases h
        | timeout => rw [htry] at h; cases h
      | Add reg opd =>
        have hni : ∀ id0 reg0, prog[s.pc] ≠ Operation.Input id0 reg0 := by simp [hop]
        have hdrop : prog.drop s.pc = Operation.Add reg opd :: prog.drop (s.pc + 1) := by
          rw [List.drop_eq_getElem_cons hpc, hop]
        rw [hdrop] at hev
        rcases evaluate_cons _ _ _ _ hev with ⟨ss2, hevop, hevrest⟩
        have hss2 : ss2 = ss.setReg reg (ss.do_add reg opd) := by
          simp only [SymbolicState.evalOp, Option.some.injEq] at hevop
          exact hevop.symm
        rw [hop] at hni
        rw [execute_step_arith_continue _ prog fuel s (.Add reg opd)
          (s.getReg reg + s.value opd) hpc hop hni rfl rfl] at h
        refine ih _ { ss2 with pc := ss2.pc + 1 } ssF t ?_ (by simpa using hevrest) h
        intro r
        rw [State.getReg_pcUpdate, SymbolicState.getReg_setPc, hss2,
          SymbolicState.getRegSym_setReg]
        rw [show (Operation.Add reg opd).get_register = reg from rfl, State.getReg_setReg]
        by_cases hr : r = reg
        · rw [if_pos hr, if_pos hr]
          exact (crossBuild_mem_keys _ _ _ _ _).mpr
            ⟨s.getReg reg, s.value opd, habs reg, mem_get_value s ss opd habs, rfl⟩
        · rw [if_neg hr, if_neg hr]
          exact habs r
      | Multiply reg opd =>
        have hni : ∀ id0 reg0, prog[s.pc] ≠ Operation.Input id0 reg0 := by simp [hop]
        have hdrop : prog.drop s.pc = Operation.Multiply reg opd :: prog.drop (s.pc + 1) := by
          rw [List.drop_eq_getElem_cons hpc, hop]
        rw [hdrop] at hev
        rcases evaluate_cons _ _ _ _ hev with ⟨ss2, hevop, hevrest⟩
        have hss2 : ss2 = ss.setReg reg (ss.do_multiply reg opd) := by
          simp only [SymbolicState.evalOp, Option.some.injEq] at hevop
          exact hevop.symm
        rw [hop] at hni
        rw [execute_step_arith_continue _ prog fuel s (.Multiply reg opd)
          (s.getReg reg * s.value opd) hpc hop hni rfl rfl] at h
        refine ih _ { ss2 with pc := ss2.pc + 1 } ssF t ?_ (by simpa using hevrest) h
        intro r
        rw [State.getReg_pcUpdate, SymbolicState.getReg_setPc, hss2,
          SymbolicState.getRegSym_setReg]
        rw [show (Operation.Multiply reg opd).get_register = reg from rfl, State.getReg_setReg]
        by_cases hr : r = reg
        · rw [if_pos hr, if_pos hr]
          exact (crossBuild_mem_keys _ _ _ _ _).mpr
            ⟨s.getReg reg, s.value opd, habs reg, mem_get_value s ss opd habs, rfl⟩
        · rw [if_neg hr, if_neg hr]
          exact habs r
      | Divide reg opd =>
        have hni : ∀ id0 reg0, prog[s.pc] ≠ Operation.Input id0 reg0 := by simp [hop]
        have hdrop : prog.drop s.pc = Operation.Divide reg opd :: prog.drop (s.pc + 1) := by
          rw [List.drop_eq_getElem_cons hpc, hop]
        rw [hdrop] at hev
        rcases evaluate_cons _ _ _ _ hev with ⟨ss2, hevop, hevrest⟩
        simp only [SymbolicState.evalOp] at hevop
        rcases Option.map_eq_some'.mp hevop with ⟨dv, hdv, hss2⟩
        have hdveq := do_divide_some ss reg opd dv hdv
        rw [hop] at hni
        by_cases hz : s.value opd = 0
        · rw [execute_step_arith_crash _ prog fuel s (.Divide reg opd) hpc hop hni
            (by simp [stepResult, hz])] at h
          cases h
        · rw [execute_step_arith_continue _ prog fuel s (.Divide reg opd)
            (Int.tdiv (s.getReg reg) (s.value opd)) hpc hop hni
            (by simp [stepResult, hz]) rfl] at h
          refine ih _ { ss2 with pc := ss2.pc + 1 } ssF t ?_ (by simpa using hevrest) h
          intro r
          rw [State.getReg_pcUpdate, SymbolicState.getReg_setPc, ← hss2,
            SymbolicState.getRegSym_setReg]
          rw [show (Operation.Divide reg opd).get_register = reg from rfl, State.getReg_setReg]
          by_cases hr : r = reg
          · rw [if_pos hr, if_pos hr, hdveq]
            exact (crossBuild_mem_keys _ _ _ _ _).mpr
              ⟨s.getReg reg, s.value opd, habs reg, mem_get_value s ss opd habs, rfl⟩
          · rw [if_neg hr, if_neg hr]
            exact habs r
      | Modulo reg opd =>
        have hni : ∀ id0 reg0, prog[s.pc] ≠ Operation.Input id0 reg0 := by simp [hop]
        have hdrop : prog.drop s.pc = Operation.Modulo reg opd :: prog.drop (s.pc + 1) := by
          rw [List.drop_eq_getElem_cons hpc, hop]
        rw [hdrop] at hev
        rcases evaluate_cons _ _ _ _ hev with ⟨ss2, hevop, hevrest⟩
        simp only [SymbolicState.evalOp] at hevop
        rcases Option.map_eq_some'.mp hevop with ⟨dv, hdv, hss2⟩
        have hdveq := do_modulo_some ss reg opd dv hdv
        rw [hop] at hni
        by_cases hz : s.value opd = 0
        · rw [execute_step_arith_crash _ prog fuel s (.Modulo reg opd) hpc hop hni
            (by simp [stepResult, hz])] at h
          cases h
        · rw [execute_step_arith_continue _ prog fuel s (.Modulo reg opd)
            (Int.tmod (s.getReg reg) (s.value opd)) hpc hop hni
            (by simp [stepResult, hz]) rfl] at h
          refine ih _ { ss2 with pc := ss2.pc + 1 } ssF t ?_ (by simpa using hevrest) h
          intro r
          rw [State.getReg_pcUpdate, SymbolicState.getReg_setPc, ← hss2,
            SymbolicState.getRegSym_setReg]
          rw [show (Operation.Modulo reg opd).get_register = reg from rfl, State.getReg_setReg]
          by_cases hr : r = reg
          · rw [if_pos hr, if_pos hr, hdveq]
            exact (crossBuild_mem_keys _ _ _ _ _).mpr
              ⟨s.getReg reg, s.value opd, habs reg, mem_get_value s ss opd habs, rfl⟩
          · rw [if_neg hr, if_neg hr]
            exact habs r
      | Equal id reg opd =>
        have hni : ∀ id0 reg0, prog[s.pc] ≠ Operation.Input id0 reg0 := by simp [hop]
        have hdrop : prog.drop s.pc = Operation.Equal id reg opd :: prog.drop (s.pc + 1) := by
          rw [List.drop_eq_getElem_cons hpc, hop]
        rw [hdrop] at hev
        rcases evaluate_cons _ _ _ _ hev with ⟨ss2, hevop, hevrest⟩
        have hss2 : ss2 = ss.setReg reg (ss.do_equals id reg opd) := by
          simp only [SymbolicState.evalOp, Option.some.injEq] at hevop
          exact hevop.symm
        rw [hop] at hni
        rw [execute_step_arith_continue _ prog fuel s (.Equal id reg opd)
          (if s.getReg reg = s.value opd then 1 else 0) hpc hop hni rfl rfl] at h
        refine ih _ { ss2 with pc := ss2.pc + 1 } ssF t ?_ (by simpa using hevrest) h
        intro r
        rw [State.getReg_pcUpdate, SymbolicState.getReg_setPc, hss2,
          SymbolicState.getRegSym_setReg]
        rw [show (Operation.Equal id reg opd).get_register = reg from rfl, State.getReg_setReg]
        by_cases hr : r = reg
        · rw [if_pos hr, if_pos hr, do_equals_keys]
          exact (crossBuild_mem_keys _ _ _ _ _).mpr
            ⟨s.getReg reg, s.value opd, habs reg, mem_get_value s ss opd habs, rfl⟩
        · rw [if_neg hr, if_neg hr]
          exact habs r

/-- C1 counterexample.  For the prefix `inp w; add x w; eql x w`
register X concretely always ends at 1 (for every digit 1..9), yet the
symbolic value computed for X contains the extra key 0: the forward
pass enumerates all 9 × 9 value pairs of X and W, losing the
correlation X = W, so the key set strictly over-approximates the set of
concretely obtainable values and the claimed exact equality fails. -/
theorem claim_C1_counterexample :
    (0 : Int) ∈ ((SymbolicState.evaluate {} [.Input 0 .W, .Add .X (.Register .W),
        .Equal 0 .X (.Register .W)]).map (fun ss => (ss.getReg .X).keys)).getD [] ∧
    descDigits.all (fun d =>
      match execute (simpleEnvironment [d]) [.Input 0 .W, .Add .X (.Register .W),
          .Equal 0 .X (.Register .W)] 10 {} with
      | .ok t => t.x == 1
      | _ => false) = true := by
  constructor
  · decide
  · rfl

/-- C1 (amended).  The key set of the symbolic value computed for a
register by the forward pass contains every concrete value that
register can hold after successfully executing the program over any
digits 1..9 (no reachable value is missing), but it may also contain
extra, concretely unreachable values. -/
theorem claim_C1 (prog : List Operation) (digits : List Int) (fuel : Nat) (t : State)
    (ssF : SymbolicState) (hdig : ∀ d ∈ digits, 1 ≤ d ∧ d ≤ 9)
    (hsym : SymbolicState.evaluate {} prog = some ssF)
    (hrun : execute (simpleEnvironment digits) prog fuel {} = .ok t) :
    ∀ r : Register, t.getReg r ∈ (ssF.getReg r).keys := by
  have habs : absState {} {} := by
    intro r
    cases r <;> decide
  exact exec_abs prog digits hdig fuel {} {} ssF t habs hsym hrun

theorem claim_C1_witness :
    State.getReg { x := 3, pc := 1 } .X ∈
      (SymbolicState.getReg { SymbolicState.setReg {} .X (SymbolicState.do_add {} .X (.Value 3))
        with pc := 1 } .X).keys :=
  claim_C1 [.Add .X (.Value 3)] [] 2 { x := 3, pc := 1 }
    { SymbolicState.setReg {} .X (SymbolicState.do_add {} .X (.Value 3)) with pc := 1 }
    (by intro d hd; simp at hd) rfl rfl .X

/-! ## Replay of a successful constrained search (C3) -/

theorem execute_ok_of_done (env : Environment) (prog : List Operation) :
    ∀ (fuel : Nat) (s t : State), prog.length ≤ s.pc →
      execute env prog fuel s = .ok t → t = s := by
  intro fuel s t hle h
  cases fuel with
  | zero => simp [execute] at h
  | succ fuel =>
    rw [execute_step_done env prog fuel s (by omega)] at h
    cases hfin : env.can_finish s with
    | true =>
      rw [hfin] at h
      simp at h
      exact h.symm
    | false => rw [hfin] at h; simp at h

theorem execute_done_ok (env : Environment) (prog : List Operation) (fuel : Nat) (s : State)
    (hle : prog.length ≤ s.pc) (hfin : env.can_finish s = true) :
    execute env prog (fuel + 1) s = .ok s := by
  rw [execute_step_done env prog fuel s (by omega), hfin]
  rfl

theorem getElem_append_mid (a : List Int) (b : Int) (l : List Int)
    (h : a.length < (a ++ b :: l).length) : (a ++ b :: l)[a.length] = b := by
  rw [List.getElem_append_right (le_refl a.length)]
  simp

/-- Running the successful constrained branch again with its own digit
list as a simple environment reproduces it instruction for instruction:
the same digits are fed (input ids are appearance-numbered, so the id-th
digit of the final state is the digit chosen at the id-th input), the
same values are computed, and no abandon fires along an accepted run. -/
theorem replay (c : List (Option Bool)) (desc : Bool) (prog : List Operation) :
    ∀ (fuel : Nat) (ne : Nat) (s0 s : State),
      numberedFrom s0.inputs.length ne (prog.drop s0.pc) = true →
      execute (constrainedEnvironment c desc) prog fuel s0 = .ok s →
      execute (simpleEnvironment s.inputs) prog fuel s0 = .ok s := by
  intro fuel
  induction fuel with
  | zero => intro ne s0 s _ h; simp [execute] at h
  | succ fuel ih =>
    intro ne s0 s hwf h
    by_cases hpc : s0.pc < prog.length
    case neg =>
      have hs : s = s0 := execute_ok_of_done _ prog (fuel + 1) s0 s (by omega) h
      subst hs
      exact execute_done_ok _ prog fuel s (by omega) rfl
    case pos =>
      cases hop : prog[s0.pc] with
      | Input id reg =>
        have hdrop : prog.drop s0.pc = Operation.Input id reg :: prog.drop (s0.pc + 1) := by
          rw [List.drop_eq_getElem_cons hpc, hop]
        rw [hdrop] at hwf
        simp only [numberedFrom, Bool.and_eq_true, beq_iff_eq] at hwf
        rcases hwf with ⟨hid, hwf2⟩
        rw [execute_step_input _ prog fuel s0 id reg hpc hop] at h
        cases htry : tryList (fun d => execute (constrainedEnvironment c desc) prog fuel
            (inputChild s0 reg d)) ((constrainedEnvironment c desc).get_input id) with
        | ok sf =>
          rw [htry] at h
          rcases tryList_ok_split _ _ _ htry with ⟨l1, d, l2, hsplit, hok, _⟩
          have hpcf := execute_ok_pc _ prog fuel _ sf hok
          have hs : s = sf := execute_ok_of_done _ prog fuel sf s hpcf h
          subst hs
          have hchild : execute (simpleEnvironment s.inputs) prog fuel
              (inputChild s0 reg d) = .ok s := by
            apply ih ne (inputChild s0 reg d) s _ hok
            have : (inputChild s0 reg d).inputs.length = s0.inputs.length + 1 := by
              simp [inputChild]
            rw [this]
            have : (inputChild s0 reg d).pc = s0.pc + 1 := rfl
            rw [this]
            exact hwf2
          rcases execute_ok_inputs _ prog fuel _ s hok with ⟨l, hl⟩
          have hinputs : s.inputs = s0.inputs ++ d :: l := by
            rw [hl]
            simp [inputChild]
          have hidlen : id < s.inputs.length := by
            rw [hinputs, hid]
            simp
          have hgete : s.inputs[id] = d := by
            subst hid
            rw [List.getElem_of_eq hinputs]
            exact getElem_append_mid s0.inputs d l (by simp)
          have hcand : (simpleEnvironment s.inputs).get_input id = [d] := by
            simp only [simpleEnvironment, hidlen, dif_pos]
            rw [hgete]
          rw [execute_step_input _ prog fuel s0 id reg hpc hop, hcand]
          have htrys : tryList (fun d0 => execute (simpleEnvironment s.inputs) prog fuel
              (inputChild s0 reg d0)) [d] = .ok s := by
            simp [tryList, hchild]
          rw [htrys]
          cases fuel with
          | zero => simp [execute] at h
          | succ fuel2 => exact execute_done_ok _ prog fuel2 s hpcf rfl
        | err m => rw [htry] at h; cases h
        | crash m => rw [htry] at h; cases h
        | timeout => rw [htry] at h; cases h
      | Add reg opd =>
        have hni : ∀ id0 reg0, Operation.Add reg opd ≠ Operation.Input id0 reg0 := by simp
        have hdrop : prog.drop s0.pc = Operation.Add reg opd :: prog.drop (s0.pc + 1) := by
          rw [List.drop_eq_getElem_cons hpc, hop]
        rw [hdrop] at hwf
        simp only [numberedFrom] at hwf
        rw [execute_step_arith_continue _ prog fuel s0 (.Add reg opd)
          (s0.getReg reg + s0.value opd) hpc hop hni rfl rfl] at h
        rw [execute_step_arith_continue _ prog fuel s0 (.Add reg opd)
          (s0.getReg reg + s0.value opd) hpc hop hni rfl rfl]
        apply ih ne _ s _ h
        simpa [State.inputs_setReg] using hwf
      | Multiply reg opd =>
        have hni : ∀ id0 reg0, Operation.Multiply reg opd ≠ Operation.Input id0 reg0 := by simp
        have hdrop : prog.drop s0.pc = Operation.Multiply reg opd :: prog.drop (s0.pc + 1) := by
          rw [List.drop_eq_getElem_cons hpc, hop]
        rw [hdrop] at hwf
        simp only [numberedFrom] at hwf
        rw [execute_step_arith_continue _ prog fuel s0 (.Multiply reg opd)
          (s0.getReg reg * s0.value opd) hpc hop hni rfl rfl] at h
        rw [execute_step_arith_continue _ prog fuel s0 (.Multiply reg opd)
          (s0.getReg reg * s0.value opd) hpc hop hni rfl rfl]
        apply ih ne _ s _ h
        simpa [State.inputs_setReg] using hwf
      | Divide reg opd =>
        have hni : ∀ id0 reg0, Operation.Divide reg opd ≠ Operation.Input id0 reg0 := by simp
        have hdrop : prog.drop s0.pc = Operation.Divide reg opd :: prog.drop (s0.pc + 1) := by
          rw [List.drop_eq_getElem_cons hpc, hop]
        rw [hdrop] at hwf
        simp only [numberedFrom] at hwf
        by_cases hz : s0.value opd = 0
        · rw [execute_step_arith_crash _ prog fuel s0 (.Divide reg opd) hpc hop hni
            (by simp [stepResult, hz])] at h
          cases h
        · rw [execute_step_arith_continue _ prog fuel s0 (.Divide reg opd)
            (Int.tdiv (s0.getReg reg) (s0.value opd)) hpc hop hni
            (by simp [stepResult, hz]) rfl] at h
          rw [execute_step_arith_continue _ prog fuel s0 (.Divide reg opd)
            (Int.tdiv (s0.getReg reg) (s0.value opd)) hpc hop hni
            (by simp [stepResult, hz]) rfl]
          apply ih ne _ s _ h
          simpa [State.inputs_setReg] using hwf
      | Modulo reg opd =>
        have hni : ∀ id0 reg0, Operation.Modulo reg opd ≠ Operation.Input id0 reg0 := by simp
        have hdrop : prog.drop s0.pc = Operation.Modulo reg opd :: prog.drop (s0.pc + 1) := by
          rw [List.drop_eq_getElem_cons hpc, hop]
        rw [hdrop] at hwf
        simp only [numberedFrom] at hwf
        by_cases hz : s0.value opd = 0
        · rw [execute_step_arith_crash _ prog fuel s0 (.Modulo reg opd) hpc hop hni
            (by simp [stepResult, hz])] at h
          cases h
        · rw [execute_step_arith_continue _ prog fuel s0 (.Modulo reg opd)
            (Int.tmod (s0.getReg reg) (s0.value opd)) hpc hop hni
            (by simp [stepResult, hz]) rfl] at h
          rw [execute_step_arith_continue _ prog fuel s0 (.Modulo reg opd)
            (Int.tmod (s0.getReg reg) (s0.value opd)) hpc hop hni
            (by simp [stepResult, hz]) rfl]
          apply ih ne _ s _ h
          simpa [State.inputs_setReg] using hwf
      | Equal id reg opd =>
        have hni : ∀ id0 reg0, Operation.Equal id reg opd ≠ Operation.Input id0 reg0 := by simp
        have hdrop : prog.drop s0.pc = Operation.Equal id reg opd :: prog.drop (s0.pc + 1) := by
          rw [List.drop_eq_getElem_cons hpc, hop]
        rw [hdrop] at hwf
        simp only [numberedFrom, Bool.and_eq_true, beq_iff_eq] at hwf
        rcases hwf with ⟨hid, hwf2⟩
        cases hab : (constrainedEnvironment c desc).should_abandon (.Equal id reg opd)
            (if s0.getReg reg = s0.value opd then 1 else 0) with
        | true =>
          rw [execute_step_arith_abandon _ prog fuel s0 (.Equal id reg opd)
            (if s0.getReg reg = s0.value opd then 1 else 0) hpc hop hni rfl hab] at h
          cases h
        | false =>
          rw [execute_step_arith_continue _ prog fuel s0 (.Equal id reg opd)
            (if s0.getReg reg = s0.value opd then 1 else 0) hpc hop hni rfl hab] at h
          rw [execute_step_arith_continue _ prog fuel s0 (.Equal id reg opd)
            (if s0.getReg reg = s0.value opd then 1 else 0) hpc hop hni rfl rfl]
          apply ih (ne + 1) _ s _ h
          simpa [State.inputs_setReg] using hwf2

/-- C3.  Round trip: any digit sequence returned by the constrained
backward search (`find_answer`), re-run through the concrete executor
with those digits as the inputs (the simple environment), terminates
successfully with register Z equal to zero. -/
theorem claim_C3 (prog : List Operation) (c : List (Option Bool)) (desc : Bool) (fuel : Nat)
    (digits : List Int) (hwf : wellFormed prog)
    (hfa : find_answer prog c desc fuel = some digits) :
    ∃ t : State, execute (simpleEnvironment digits) prog fuel {} = .ok t ∧
      t.inputs = digits ∧ t.getReg .Z = 0 := by
  unfold find_answer at hfa
  cases hrun : execute (constrainedEnvironment c desc) prog fuel {} with
  | ok s =>
    rw [hrun] at hfa
    simp at hfa
    subst hfa
    refine ⟨s, ?_, rfl, ?_⟩
    · exact replay c desc prog fuel 0 {} s (by simpa [wellFormed] using hwf) hrun
    · have hfin := execute_ok_can_finish _ prog fuel _ s hrun
      simpa [constrainedEnvironment] using hfin
  | err m => rw [hrun] at hfa; cases hfa
  | crash m => rw [hrun] at hfa; cases hfa
  | timeout => rw [hrun] at hfa; cases hfa

theorem claim_C3_witness :
    ∃ t : State, execute (simpleEnvironment [5, 6]) [.Input 0 .W, .Multiply .W (.Value 10),
      .Input 1 .X, .Add .W (.Register .X), .Add .Y (.Register .W), .Equal 0 .Y (.Value 56)]
      50 {} = .ok t ∧ t.inputs = [5, 6] ∧ t.getReg .Z = 0 :=
  claim_C3 [.Input 0 .W, .Multiply .W (.Value 10), .Input 1 .X, .Add .W (.Register .X),
    .Add .Y (.Register .W), .Equal 0 .Y (.Value 56)] [some true] true 50 [5, 6]
    (by unfold wellFormed; decide) (by decide)

/-! ## Breadcrumb satisfaction along a concrete run (towards C2) -/

theorem satOK_and (b : Bool) (u v : SymbolicBoolean)
    (hu : u = .ANY ∨ u = (if b then .TRUE else .FALSE))
    (hv : v = .ANY ∨ v = (if b then .TRUE else .FALSE)) :
    u.and v = .ANY ∨ u.and v = (if b then .TRUE else .FALSE) := by
  cases b <;> cases u <;> cases v <;> simp_all <;> decide

theorem satOK_or_left (b : Bool) (u v : SymbolicBoolean)
    (hu : u = .ANY ∨ u = (if b then .TRUE else .FALSE)) :
    u.or v = .ANY ∨ u.or v = (if b then .TRUE else .FALSE) := by
  cases b <;> cases u <;> cases v <;> simp_all <;> decide

theorem satOK_or_right (b : Bool) (u v : SymbolicBoolean)
    (hv : v = .ANY ∨ v = (if b then .TRUE else .FALSE)) :
    u.or v = .ANY ∨ u.or v = (if b then .TRUE else .FALSE) := by
  cases b <;> cases u <;> cases v <;> simp_all <;> decide

theorem satBC_and {o : Nat → Bool} {a b : BreadCrumb} (ha : satBC o a) (hb : satBC o b) :
    satBC o (a.and b) := by
  intro i
  rw [BreadCrumb.get_and]
  exact satOK_and (o i) _ _ (ha i) (hb i)

theorem satBC_or_left {o : Nat → Bool} {a : BreadCrumb} (b : BreadCrumb) (ha : satBC o a) :
    satBC o (a.or b) := by
  intro i
  rw [BreadCrumb.get_or]
  exact satOK_or_left (o i) _ _ (ha i)

theorem satBC_or_right {o : Nat → Bool} (a : BreadCrumb) {b : BreadCrumb} (hb : satBC o b) :
    satBC o (a.or b) := by
  intro i
  rw [BreadCrumb.get_or]
  exact satOK_or_right (o i) _ _ (hb i)

theorem satBC_init (o : Nat → Bool) : satBC o BreadCrumb.init := by
  intro i
  left
  rfl

theorem satBC_foldl_or {o : Nat → Bool} :
    ∀ (cs : List BreadCrumb) (c0 : BreadCrumb),
      (satBC o c0 ∨ ∃ c ∈ cs, satBC o c) → satBC o (cs.foldl BreadCrumb.or c0) := by
  intro cs
  induction cs with
  | nil =>
    intro c0 h
    rcases h with h | ⟨c, hc, _⟩
    · exact h
    · simp at hc
  | cons c1 cs ih =>
    intro c0 h
    rw [List.foldl_cons]
    rcases h with h | ⟨c, hc, hsat⟩
    · exact ih (c0.or c1) (Or.inl (satBC_or_left c1 h))
    · rcases List.mem_cons.mp hc with rfl | hmem
      · exact ih (c0.or c) (Or.inl (satBC_or_right c0 hsat))
      · exact ih (c0.or c1) (Or.inr ⟨c, hmem, hsat⟩)

theorem satBC_orMergeAll {o : Nat → Bool} {cs : List BreadCrumb} {c : BreadCrumb}
    (hmem : c ∈ cs) (hsat : satBC o c) :
    ∃ bc, orMergeAll cs = some bc ∧ satBC o bc := by
  cases cs with
  | nil => simp at hmem
  | cons c0 rest =>
    refine ⟨rest.foldl BreadCrumb.or c0, rfl, ?_⟩
    rcases List.mem_cons.mp hmem with rfl | hmem2
    · exact satBC_foldl_or rest c (Or.inl hsat)
    · exact satBC_foldl_or rest c0 (Or.inr ⟨c, hmem2, hsat⟩)

theorem satBC_update {o o2 : Nat → Bool} {bc : BreadCrumb} {ne : Nat}
    (hsat : satBC o bc) (hlen : bc.crumbs.length ≤ ne)
    (hagree : ∀ i, i < ne → o2 i = o i) : satBC o2 bc := by
  intro i
  by_cases hi : i < bc.crumbs.length
  · rw [hagree i (by omega)]
    exact hsat i
  · left
    simp [BreadCrumb.get, List.getD_eq_getElem?_getD, List.getElem?_eq_none (by omega : bc.crumbs.length ≤ i)]

theorem setPad_getD :
    ∀ (idx : Nat) (l : List SymbolicBoolean) (v : SymbolicBoolean) (i : Nat),
      (setPad l idx v).getD i .ANY = if i = idx then v else l.getD i .ANY := by
  intro idx
  induction idx with
  | zero =>
    intro l v i
    cases l <;> cases i <;> simp [setPad, List.getD]
  | succ n ih =>
    intro l v i
    cases l with
    | nil =>
      cases i with
      | zero => simp [setPad, List.getD]
      | succ j =>
        simp only [setPad, List.getD_cons_succ]
        rw [ih [] v j]
        simp
    | cons cHd cTl =>
      cases i with
      | zero => simp [setPad, List.getD]
      | succ j =>
        simp only [setPad, List.getD_cons_succ]
        rw [ih cTl v j]
        simp

theorem setPad_length :
    ∀ (idx : Nat) (l : List SymbolicBoolean) (v : SymbolicBoolean),
      (setPad l idx v).length = max l.length (idx + 1) := by
  intro idx
  induction idx with
  | zero => intro l v; cases l <;> simp [setPad]
  | succ n ih =>
    intro l v
    cases l with
    | nil =>
      have h1 := ih [] v
      simp only [setPad, List.length_cons, h1]
      simp
    | cons cHd cTl =>
      have h1 := ih cTl v
      simp only [setPad, List.length_cons, h1]
      omega

theorem BreadCrumb.get_set (bc : BreadCrumb) (idx : Nat) (v : Bool) (i : Nat) :
    (bc.set idx v).get i = if i = idx then (if v then .TRUE else .FALSE) else bc.get i :=
  setPad_getD idx bc.crumbs (if v then .TRUE else .FALSE) i

theorem insertOr_entries {n : Nat} (k : Int) (c : BreadCrumb) (hc : c.crumbs.length ≤ n) :
    ∀ l : List (Int × BreadCrumb), (∀ p ∈ l, p.2.crumbs.length ≤ n) →
      ∀ p ∈ insertOr l k c, p.2.crumbs.length ≤ n := by
  intro l
  induction l with
  | nil =>
    intro _ p hp
    simp only [insertOr, List.mem_singleton] at hp
    subst hp
    exact hc
  | cons hd tl ih =>
    intro hl p hp
    rcases hd with ⟨k0, c0⟩
    by_cases hk : k0 = k
    · subst hk
      rw [insertOr_cons_same] at hp
      rcases List.mem_cons.mp hp with rfl | hmem
      · show (c0.or c).crumbs.length ≤ n
        rw [show (c0.or c).crumbs = orLists c0.crumbs c.crumbs from rfl, orLists_length]
        have := hl (k0, c0) (List.mem_cons_self _ _)
        simp at this
        omega
      · exact hl p (List.mem_cons_of_mem _ hmem)
    · rw [insertOr_cons_other k0 c0 tl k c hk] at hp
      rcases List.mem_cons.mp hp with rfl | hmem
      · exact hl (k0, c0) (List.mem_cons_self _ _)
      · exact ih (fun q hq => hl q (List.mem_cons_of_mem _ hq)) p hmem

theorem foldl_insertOr_entries {α : Type} (v : α → Int) (cb : α → BreadCrumb) {n : Nat} :
    ∀ (ps : List α) (acc : List (Int × BreadCrumb)),
      (∀ p ∈ acc, p.2.crumbs.length ≤ n) → (∀ a ∈ ps, (cb a).crumbs.length ≤ n) →
      ∀ p ∈ ps.foldl (fun l a => insertOr l (v a) (cb a)) acc, p.2.crumbs.length ≤ n := by
  intro ps
  induction ps with
  | nil => intro acc hacc _ p hp; exact hacc p hp
  | cons a ps ih =>
    intro acc hacc hps p hp
    rw [List.foldl_cons] at hp
    refine ih (insertOr acc (v a) (cb a)) ?_ (fun a2 ha2 => hps a2 (List.mem_cons_of_mem _ ha2)) p hp
    exact insertOr_entries (v a) (cb a) (hps a (List.mem_cons_self _ _)) acc hacc

theorem crossBuild_entriesLen {n : Nat} (left right : SymbolicValue) (val : Int → Int → Int)
    (crumb : Int → BreadCrumb → Int → BreadCrumb → BreadCrumb)
    (hcr : ∀ p ∈ allPairs left.values right.values,
      (crumb p.1.1 p.1.2 p.2.1 p.2.2).crumbs.length ≤ n) :
    entriesLen n (crossBuild left right val crumb) := by
  intro p hp
  rw [show (crossBuild left right val crumb).values =
    (allPairs left.values right.values).foldl
      (fun l a => insertOr l (val a.1.1 a.2.1) (crumb a.1.1 a.1.2 a.2.1 a.2.2)) [] from rfl] at hp
  exact foldl_insertOr_entries (fun a => val a.1.1 a.2.1)
    (fun a => crumb a.1.1 a.1.2 a.2.1 a.2.2) (allPairs left.values right.values) []
    (by simp) hcr p hp

theorem entriesLen_mono {n m : Nat} {sv : SymbolicValue} (h : entriesLen n sv) (hnm : n ≤ m) :
    entriesLen m sv := by
  intro p hp
  exact le_trans (h p hp) hnm

theorem find_mem_values {sv : SymbolicValue} {k : Int} {bc : BreadCrumb}
    (h : sv.find k = some bc) : (k, bc) ∈ sv.values := by
  unfold SymbolicValue.find at h
  rcases Option.map_eq_some'.mp h with ⟨p, hp, hbc⟩
  have hmem := List.mem_of_find?_eq_some hp
  have hfst := List.find?_some hp
  simp at hfst
  subst hbc
  rcases p with ⟨k0, c0⟩
  simp at hfst
  subst hfst
  exact hmem

theorem crossBuild_find_sat {o : Nat → Bool} (left right : SymbolicValue)
    (val : Int → Int → Int) (crumb : Int → BreadCrumb → Int → BreadCrumb → BreadCrumb)
    (lv rv : Int) (lc rc : BreadCrumb)
    (hl : left.find lv = some lc) (hr : right.find rv = some rc)
    (hsat : satBC o (crumb lv lc rv rc)) :
    ∃ bc, (crossBuild left right val crumb).find (val lv rv) = some bc ∧ satBC o bc := by
  have hlm := find_mem_values hl
  have hrm := find_mem_values hr
  have hcontrib : crumb lv lc rv rc ∈
      crossContribs left right val crumb (val lv rv) := by
    refine List.mem_filterMap.mpr ⟨((lv, lc), (rv, rc)), mem_allPairs.mpr ⟨hlm, hrm⟩, ?_⟩
    simp
  rcases satBC_orMergeAll hcontrib hsat with ⟨bc, hmerge, hbcsat⟩
  refine ⟨bc, ?_, hbcsat⟩
  rw [find_crossBuild]
  exact hmerge

theorem find_literal (x : Int) : (SymbolicValue.literal x).find x = some BreadCrumb.init := by
  simp [SymbolicValue.literal, SymbolicValue.find, List.find?]

theorem entriesLen_literal (n : Nat) (x : Int) : entriesLen n (SymbolicValue.literal x) := by
  intro p hp
  simp [SymbolicValue.literal] at hp
  subst hp
  simp [BreadCrumb.init]

theorem find_do_input (d : Int) (h1 : 1 ≤ d) (h9 : d ≤ 9) :
    SymbolicState.do_input.find d = some BreadCrumb.init := by
  have hd : d = 1 ∨ d = 2 ∨ d = 3 ∨ d = 4 ∨ d = 5 ∨ d = 6 ∨ d = 7 ∨ d = 8 ∨ d = 9 := by omega
  rcases hd with rfl|rfl|rfl|rfl|rfl|rfl|rfl|rfl|rfl <;> rfl

theorem entriesLen_do_input (n : Nat) : entriesLen n SymbolicState.do_input := by
  intro p hp
  simp [SymbolicState.do_input] at hp
  rcases hp with h|h|h|h|h|h|h|h|h <;> subst h <;> simp [BreadCrumb.init]

theorem operand_entry {o : Nat → Bool} {ne : Nat} (s : State) (ss : SymbolicState)
    (opd : Operand) (habs : symAbs o ne s ss) :
    entriesLen ne (ss.get_value opd) ∧
      ∃ bc, (ss.get_value opd).find (s.value opd) = some bc ∧ satBC o bc := by
  cases opd with
  | Value v => exact ⟨entriesLen_literal ne v, BreadCrumb.init, find_literal v, satBC_init o⟩
  | Register r => exact habs r

theorem length_and_le {n : Nat} (a b : BreadCrumb) (ha : a.crumbs.length ≤ n)
    (hb : b.crumbs.length ≤ n) : (a.and b).crumbs.length ≤ n := by
  rw [show (a.and b).crumbs = andLists a.crumbs b.crumbs from rfl, andLists_length]
  omega

theorem length_or_le {n : Nat} (a b : BreadCrumb) (ha : a.crumbs.length ≤ n)
    (hb : b.crumbs.length ≤ n) : (a.or b).crumbs.length ≤ n := by
  rw [show (a.or b).crumbs = orLists a.crumbs b.crumbs from rfl, orLists_length]
  omega

theorem satBC_multiplyCrumb {o : Nat → Bool} (lv rv : Int) {lc rc : BreadCrumb}
    (hl : satBC o lc) (hr : satBC o rc) : satBC o (multiplyCrumb lv lc rv rc) := by
  unfold multiplyCrumb
  by_cases h1 : lv = 0 ∧ rv = 0
  · rw [if_pos h1]
    exact satBC_or_left rc hl
  · rw [if_neg h1]
    by_cases h2 : lv = 0
    · rw [if_pos h2]
      exact hl
    · rw [if_neg h2]
      by_cases h3 : rv = 0
      · rw [if_pos h3]
        exact hr
      · rw [if_neg h3]
        exact satBC_and hl hr

theorem length_multiplyCrumb {n : Nat} (lv rv : Int) {lc rc : BreadCrumb}
    (hl : lc.crumbs.length ≤ n) (hr : rc.crumbs.length ≤ n) :
    (multiplyCrumb lv lc rv rc).crumbs.length ≤ n := by
  unfold multiplyCrumb
  by_cases h1 : lv = 0 ∧ rv = 0
  · rw [if_pos h1]
    exact length_or_le lc rc hl hr
  · rw [if_neg h1]
    by_cases h2 : lv = 0
    · rw [if_pos h2]
      exact hl
    · rw [if_neg h2]
      by_cases h3 : rv = 0
      · rw [if_pos h3]
        exact hr
      · rw [if_neg h3]
        exact length_and_le lc rc hl hr

theorem satBC_divModCrumb {o : Nat → Bool} (lv rv : Int) {lc rc : BreadCrumb}
    (hl : satBC o lc) (hr : satBC o rc) : satBC o (divModCrumb lv lc rv rc) := by
  unfold divModCrumb
  by_cases h : lv ≠ 0
  · rw [if_pos h]
    exact satBC_and hl hr
  · rw [if_neg h]
    exact hl

theorem length_divModCrumb {n : Nat} (lv rv : Int) {lc rc : BreadCrumb}
    (hl : lc.crumbs.length ≤ n) (hr : rc.crumbs.length ≤ n) :
    (divModCrumb lv lc rv rc).crumbs.length ≤ n := by
  unfold divModCrumb
  by_cases h : lv ≠ 0
  · rw [if_pos h]
    exact length_and_le lc rc hl hr
  · rw [if_neg h]
    exact hl

theorem crossBuild_entry {o : Nat → Bool} {ne : Nat} {s : State} {ss : SymbolicState}
    (reg : Register) (opd : Operand) (val : Int → Int → Int)
    (crumb : Int → BreadCrumb → Int → BreadCrumb → BreadCrumb)
    (habs : symAbs o ne s ss)
    (hsat : ∀ lc rc, satBC o lc → satBC o rc →
      satBC o (crumb (s.getReg reg) lc (s.value opd) rc))
    (hlen : ∀ lv lc rv rc, lc.crumbs.length ≤ ne → rc.crumbs.length ≤ ne →
      (crumb lv lc rv rc).crumbs.length ≤ ne) :
    entriesLen ne (crossBuild (ss.getReg reg) (ss.get_value opd) val crumb) ∧
    ∃ bc, (crossBuild (ss.getReg reg) (ss.get_value opd) val crumb).find
      (val (s.getReg reg) (s.value opd)) = some bc ∧ satBC o bc := by
  rcases habs reg with ⟨hlenL, lc, hfl, hsl⟩
  rcases operand_entry s ss opd habs with ⟨hlenO, rc, hfr, hsr⟩
  constructor
  · apply crossBuild_entriesLen
    intro p hp
    rcases mem_allPairs.mp hp with ⟨h1, h2⟩
    exact hlen _ _ _ _ (hlenL p.1 h1) (hlenO p.2 h2)
  · exact crossBuild_find_sat _ _ val crumb _ _ lc rc hfl hfr (hsat lc rc hsl hsr)

theorem do_equals_entry {o : Nat → Bool} (o2 : Nat → Bool) {ne : Nat} {s : State}
    {ss : SymbolicState} (reg : Register) (opd : Operand) (habs : symAbs o ne s ss)
    (h2ne : o2 ne = decide (s.getReg reg = s.value opd))
    (h2o : ∀ i, i ≠ ne → o2 i = o i) :
    entriesLen (ne + 1) (ss.do_equals ne reg opd) ∧
    ∃ bc, (ss.do_equals ne reg opd).find (if s.getReg reg = s.value opd then 1 else 0) =
      some bc ∧ satBC o2 bc := by
  rcases crossBuild_entry reg opd (fun lv rv => if lv = rv then 1 else 0)
      (fun _ lc _ rc => lc.and rc) habs
      (fun lc rc hl hr => satBC_and hl hr)
      (fun lv lc rv rc hl hr => length_and_le lc rc hl hr) with ⟨hlenB, bc0, hfind0, hsat0⟩
  have hvals : (ss.do_equals ne reg opd).values =
      (crossBuild (ss.getReg reg) (ss.get_value opd)
        (fun lv rv => if lv = rv then 1 else 0)
        (fun _ lc _ rc => lc.and rc)).values.map
        (fun p => (p.1, p.2.set ne (p.1 == 1))) := rfl
  constructor
  · intro p hp
    rw [hvals] at hp
    rcases List.mem_map.mp hp with ⟨q, hq, hpq⟩
    have hlq := hlenB q hq
    rw [← hpq]
    show (q.2.set ne (q.1 == 1)).crumbs.length ≤ ne + 1
    rw [show (q.2.set ne (q.1 == 1)).crumbs =
      setPad q.2.crumbs ne (if (q.1 == 1) then .TRUE else .FALSE) from rfl, setPad_length]
    omega
  · refine ⟨bc0.set ne ((if s.getReg reg = s.value opd then (1 : Int) else 0) == 1), ?_, ?_⟩
    · show findEntry _ _ = _
      rw [hvals, findEntry_map_stamp (fun a c => c.set ne (a == 1)),
        ← SymbolicValue.find_eq_findEntry, hfind0]
      rfl
    · intro i
      rw [BreadCrumb.get_set]
      by_cases hi : i = ne
      · rw [if_pos hi, hi]
        right
        rw [h2ne]
        by_cases heq : s.getReg reg = s.value opd <;> simp [heq]
      · rw [if_neg hi, h2o i hi]
        exact hsat0 i

theorem symAbs_update2 {o o2 : Nat → Bool} {ne ne2 : Nat} {s : State} {ss : SymbolicState}
    (reg : Register) (res : Int) (sv : SymbolicValue) (spc npc : Nat)
    (habs : symAbs o ne s ss)
    (hne : ne ≤ ne2)
    (hagree : ∀ i, i < ne → o2 i = o i)
    (hlen : entriesLen ne2 sv)
    (hfind : ∃ bc, sv.find res = some bc ∧ satBC o2 bc) :
    symAbs o2 ne2 { s.setReg reg res with pc := spc } { ss.setReg reg sv with pc := npc } := by
  intro r
  rw [SymbolicState.getReg_setPc, SymbolicState.getRegSym_setReg, State.getReg_pcUpdate,
    State.getReg_setReg]
  by_cases hr : r = reg
  · rw [if_pos hr, if_pos hr]
    exact ⟨hlen, hfind⟩
  · rw [if_neg hr, if_neg hr]
    rcases habs r with ⟨hl, bc, hf, hs⟩
    refine ⟨entriesLen_mono hl hne, bc, hf, satBC_update hs ?_ hagree⟩
    exact hl (s.getReg r, bc) (find_mem_values hf)

theorem eqResult_beq (P : Prop) [Decidable P] : ((if P then (1 : Int) else 0) == 1) = decide P := by
  by_cases h : P <;> simp [h]

/-- The necessity invariant carried along one concrete run: the run's
comparison outcomes satisfy every breadcrumb entry the forward pass
associates with the values the run actually takes; consequently the
run, re-executed under the pruning environment of any constraint vector
compatible with its outcomes, is never abandoned and succeeds
identically. -/
theorem nec_sim (prog : List Operation) (digits : List Int)
    (hdig : ∀ d ∈ digits, 1 ≤ d ∧ d ≤ 9) :
    ∀ (fuel ne : Nat) (s : State) (ss ssF : SymbolicState) (t : State) (o : Nat → Bool),
      numberedFrom s.inputs.length ne (prog.drop s.pc) = true →
      symAbs o ne s ss →
      SymbolicState.evaluate ss (prog.drop s.pc) = some ssF →
      execute (simpleEnvironment digits) prog fuel s = .ok t →
      ∃ oF : Nat → Bool,
        (∀ i, i < ne → oF i = o i) ∧
        (∃ neF, symAbs oF neF t ssF) ∧
        (∀ c : List (Option Bool), compatible c oF → t.getReg .Z = 0 →
          execute (branchEnvironment c digits) prog fuel s = .ok t) := by
  intro fuel
  induction fuel with
  | zero => intro ne s ss ssF t o _ _ _ h; simp [execute] at h
  | succ fuel ih =>
    intro ne s ss ssF t o hwf habs hev h
    by_cases hpc : s.pc < prog.length
    case neg =>
      have hdrop : prog.drop s.pc = [] := List.drop_eq_nil_of_le (le_of_not_lt hpc)
      rw [hdrop] at hev
      simp only [SymbolicState.evaluate, Option.some.injEq] at hev
      have ht : t = s := execute_ok_of_done _ prog (fuel + 1) s t (by omega) h
      subst ht
      refine ⟨o, fun i _ => rfl, ⟨ne, by rw [← hev]; exact habs⟩, ?_⟩
      intro c hcomp hz
      exact execute_done_ok _ prog fuel t (by omega) (by simp [branchEnvironment, hz])
    case pos =>
      cases hop : prog[s.pc] with
      | Input id reg =>
        have hdrop : prog.drop s.pc = Operation.Input id reg :: prog.drop (s.pc + 1) := by
          rw [List.drop_eq_getElem_cons hpc, hop]
        rw [hdrop] at hwf hev
        simp only [numberedFrom, Bool.and_eq_true, beq_iff_eq] at hwf
        rcases hwf with ⟨hid, hwf2⟩
        rcases evaluate_cons _ _ _ _ hev with ⟨ss2, hevop, hevrest⟩
        have hss2 : ss2 = ss.setReg reg SymbolicState.do_input := by
          simp only [SymbolicState.evalOp, Option.some.injEq] at hevop
          exact hevop.symm
        rw [execute_step_input _ prog fuel s id reg hpc hop] at h
        cases htry : tryList (fun d => execute (simpleEnvironment digits) prog fuel
            (inputChild s reg d)) ((simpleEnvironment digits).get_input id) with
        | ok sf =>
          rw [htry] at h
          rcases tryList_ok_split _ _ _ htry with ⟨l1, d, l2, hsplit, hok, _⟩
          by_cases hidlt : id < digits.length
          case neg =>
            have hcand : (simpleEnvironment digits).get_input id = [] := by
              simp [simpleEnvironment, hidlt]
            rw [hcand] at hsplit
            exact absurd hsplit (by simp)
          case pos =>
          have hcand : (simpleEnvironment digits).get_input id = [digits[id]] := by
            simp [simpleEnvironment, hidlt]
          rw [hcand] at hsplit
          have hd : d = digits[id] := singleton_split hsplit
          have hdmem : d ∈ digits := by rw [hd]; exact List.getElem_mem hidlt
          have habs2 : symAbs o ne (inputChild s reg d) { ss2 with pc := ss2.pc + 1 } := by
            intro r
            rw [SymbolicState.getReg_setPc, hss2, SymbolicState.getRegSym_setReg,
              State.getReg_inputChild]
            by_cases hr : r = reg
            · rw [if_pos hr, if_pos hr]
              exact ⟨entriesLen_do_input ne, BreadCrumb.init,
                find_do_input d (hdig d hdmem).1 (hdig d hdmem).2, satBC_init o⟩
            · rw [if_neg hr, if_neg hr]
              exact habs r
          have hwfchild : numberedFrom (inputChild s reg d).inputs.length ne
              (prog.drop (inputChild s reg d).pc) = true := by
            have h1 : (inputChild s reg d).inputs.length = s.inputs.length + 1 := by
              simp [inputChild]
            rw [h1, show (inputChild s reg d).pc = s.pc + 1 from rfl]
            exact hwf2
          have hevchild : SymbolicState.evaluate { ss2 with pc := ss2.pc + 1 }
              (prog.drop (inputChild s reg d).pc) = some ssF := by
            simpa [inputChild] using hevrest
          rcases ih ne (inputChild s reg d) { ss2 with pc := ss2.pc + 1 } ssF sf o
            hwfchild habs2 hevchild hok with ⟨oF, hagree, hfin, hbranch⟩
          have hpcf := execute_ok_pc _ prog fuel _ sf hok
          have ht : t = sf := execute_ok_of_done _ prog fuel sf t hpcf h
          subst ht
          refine ⟨oF, hagree, hfin, ?_⟩
          intro c hcomp hz
          rw [execute_step_input (branchEnvironment c digits) prog fuel s id reg hpc hop]
          have hcandB : (branchEnvironment c digits).get_input id = [d] := by
            rw [show (branchEnvironment c digits).get_input =
              (simpleEnvironment digits).get_input from rfl, hcand, hd]
          rw [hcandB]
          have hchildB := hbranch c hcomp hz
          have htryB : tryList (fun d0 => execute (branchEnvironment c digits) prog fuel
              (inputChild s reg d0)) [d] = .ok t := by
            simp [tryList, hchildB]
          rw [htryB]
          cases fuel with
          | zero => simp [execute] at h
          | succ f2 => exact execute_done_ok _ prog f2 t hpcf (by simp [branchEnvironment, hz])
        | err m => rw [htry] at h; cases h
        | crash m => rw [htry] at h; cases h
        | timeout => rw [htry] at h; cases h
      | Add reg opd =>
        have hni : ∀ id0 reg0, Operation.Add reg opd ≠ Operation.Input id0 reg0 := by simp
        have hdrop : prog.drop s.pc = Operation.Add reg opd :: prog.drop (s.pc + 1) := by
          rw [List.drop_eq_getElem_cons hpc, hop]
        rw [hdrop] at hwf hev
        simp only [numberedFrom] at hwf
        rcases evaluate_cons _ _ _ _ hev with ⟨ss2, hevop, hevrest⟩
        have hss2 : ss2 = ss.setReg reg (ss.do_add reg opd) := by
          simp only [SymbolicState.evalOp, Option.some.injEq] at hevop
          exact hevop.symm
        rw [execute_step_arith_continue _ prog fuel s (.Add reg opd)
          (s.getReg reg + s.value opd) hpc hop hni rfl rfl] at h
        rw [show (Operation.Add reg opd).get_register = reg from rfl] at h
        rcases crossBuild_entry reg opd (· + ·) (fun _ lc _ rc => lc.and rc) habs
          (fun lc rc hl hr => satBC_and hl hr)
          (fun lv lc rv rc hl hr => length_and_le lc rc hl hr) with ⟨hlenC, hfindC⟩
        have habs2 : symAbs o ne
            { s.setReg reg (s.getReg reg + s.value opd) with pc := s.pc + 1 }
            { ss2 with pc := ss2.pc + 1 } := by
          rw [hss2]
          exact symAbs_update2 reg _ _ _ _ habs (le_refl ne) (fun i _ => rfl) hlenC hfindC
        rcases ih ne _ _ ssF t o (by simpa [State.inputs_setReg] using hwf) habs2
          (by simpa using hevrest) h with ⟨oF, hagree, hfin, hbranch⟩
        refine ⟨oF, hagree, hfin, ?_⟩
        intro c hcomp hz
        rw [execute_step_arith_continue (branchEnvironment c digits) prog fuel s (.Add reg opd)
          (s.getReg reg + s.value opd) hpc hop hni rfl rfl]
        rw [show (Operation.Add reg opd).get_register = reg from rfl]
        exact hbranch c hcomp hz
      | Multiply reg opd =>
        have hni : ∀ id0 reg0, Operation.Multiply reg opd ≠ Operation.Input id0 reg0 := by simp
        have hdrop : prog.drop s.pc = Operation.Multiply reg opd :: prog.drop (s.pc + 1) := by
          rw [List.drop_eq_getElem_cons hpc, hop]
        rw [hdrop] at hwf hev
        simp only [numberedFrom] at hwf
        rcases evaluate_cons _ _ _ _ hev with ⟨ss2, hevop, hevrest⟩
        have hss2 : ss2 = ss.setReg reg (ss.do_multiply reg opd) := by
          simp only [SymbolicState.evalOp, Option.some.injEq] at hevop
          exact hevop.symm
        rw [execute_step_arith_continue _ prog fuel s (.Multiply reg opd)
          (s.getReg reg * s.value opd) hpc hop hni rfl rfl] at h
        rw [show (Operation.Multiply reg opd).get_register = reg from rfl] at h
        rcases crossBuild_entry reg opd (· * ·) multiplyCrumb habs
          (fun lc rc hl hr => satBC_multiplyCrumb _ _ hl hr)
          (fun lv lc rv rc hl hr => length_multiplyCrumb lv rv hl hr) with ⟨hlenC, hfindC⟩
        have habs2 : symAbs o ne
            { s.setReg reg (s.getReg reg * s.value opd) with pc := s.pc + 1 }
            { ss2 with pc := ss2.pc + 1 } := by
          rw [hss2]
          exact symAbs_update2 reg _ _ _ _ habs (le_refl ne) (fun i _ => rfl) hlenC hfindC
        rcases ih ne _ _ ssF t o (by simpa [State.inputs_setReg] using hwf) habs2
          (by simpa using hevrest) h with ⟨oF, hagree, hfin, hbranch⟩
        refine ⟨oF, hagree, hfin, ?_⟩
        intro c hcomp hz
        rw [execute_step_arith_continue (branchEnvironment c digits) prog fuel s
          (.Multiply reg opd) (s.getReg reg * s.value opd) hpc hop hni rfl rfl]
        rw [show (Operation.Multiply reg opd).get_register = reg from rfl]
        exact hbranch c hcomp hz
      | Divide reg opd =>
        have hni : ∀ id0 reg0, Operation.Divide reg opd ≠ Operation.Input id0 reg0 := by simp
        have hdrop : prog.drop s.pc = Operation.Divide reg opd :: prog.drop (s.pc + 1) := by
          rw [List.drop_eq_getElem_cons hpc, hop]
        rw [hdrop] at hwf hev
        simp only [numberedFrom] at hwf
        rcases evaluate_cons _ _ _ _ hev with ⟨ss2, hevop, hevrest⟩
        simp only [SymbolicState.evalOp] at hevop
        rcases Option.map_eq_some'.mp hevop with ⟨dv, hdv, hss2⟩
        have hdveq := do_divide_some ss reg opd dv hdv
        by_cases hz0 : s.value opd = 0
        · rw [execute_step_arith_crash _ prog fuel s (.Divide reg opd) hpc hop hni
            (by simp [stepResult, hz0])] at h
          cases h
        · rw [execute_step_arith_continue _ prog fuel s (.Divide reg opd)
            (Int.tdiv (s.getReg reg) (s.value opd)) hpc hop hni
            (by simp [stepResult, hz0]) rfl] at h
          rw [show (Operation.Divide reg opd).get_register = reg from rfl] at h
          rcases crossBuild_entry reg opd (fun a b => Int.tdiv a b) divModCrumb habs
            (fun lc rc hl hr => satBC_divModCrumb _ _ hl hr)
            (fun lv lc rv rc hl hr => length_divModCrumb lv rv hl hr) with ⟨hlenC, hfindC⟩
          have habs2 : symAbs o ne
              { s.setReg reg (Int.tdiv (s.getReg reg) (s.value opd)) with pc := s.pc + 1 }
              { ss2 with pc := ss2.pc + 1 } := by
            rw [← hss2, hdveq]
            exact symAbs_update2 reg _ _ _ _ habs (le_refl ne) (fun i _ => rfl) hlenC hfindC
          rcases ih ne _ _ ssF t o (by simpa [State.inputs_setReg] using hwf) habs2
            (by simpa using hevrest) h with ⟨oF, hagree, hfin, hbranch⟩
          refine ⟨oF, hagree, hfin, ?_⟩
          intro c hcomp hz
          rw [execute_step_arith_continue (branchEnvironment c digits) prog fuel s
            (.Divide reg opd) (Int.tdiv (s.getReg reg) (s.value opd)) hpc hop hni
            (by simp [stepResult, hz0]) rfl]
          rw [show (Operation.Divide reg opd).get_register = reg from rfl]
          exact hbranch c hcomp hz
      | Modulo reg opd =>
        have hni : ∀ id0 reg0, Operation.Modulo reg opd ≠ Operation.Input id0 reg0 := by simp
        have hdrop : prog.drop s.pc = Operation.Modulo reg opd :: prog.drop (s.pc + 1) := by
          rw [List.drop_eq_getElem_cons hpc, hop]
        rw [hdrop] at hwf hev
        simp only [numberedFrom] at hwf
        rcases evaluate_cons _ _ _ _ hev with ⟨ss2, hevop, hevrest⟩
        simp only [SymbolicState.evalOp] at hevop
        rcases Option.map_eq_some'.mp hevop with ⟨dv, hdv, hss2⟩
        have hdveq := do_modulo_some ss reg opd dv hdv
        by_cases hz0 : s.value opd = 0
        · rw [execute_step_arith_crash _ prog fuel s (.Modulo reg opd) hpc hop hni
            (by simp [stepResult, hz0])] at h
          cases h
        · rw [execute_step_arith_continue _ prog fuel s (.Modulo reg opd)
            (Int.tmod (s.getReg reg) (s.value opd)) hpc hop hni
            (by simp [stepResult, hz0]) rfl] at h
          rw [show (Operation.Modulo reg opd).get_register = reg from rfl] at h
          rcases crossBuild_entry reg opd (fun a b => Int.tmod a b) divModCrumb habs
            (fun lc rc hl hr => satBC_divModCrumb _ _ hl hr)
            (fun lv lc rv rc hl hr => length_divModCrumb lv rv hl hr) with ⟨hlenC, hfindC⟩
          have habs2 : symAbs o ne
              { s.setReg reg (Int.tmod (s.getReg reg) (s.value opd)) with pc := s.pc + 1 }
              { ss2 with pc := ss2.pc + 1 } := by
            rw [← hss2, hdveq]
            exact symAbs_update2 reg _ _ _ _ habs (le_refl ne) (fun i _ => rfl) hlenC hfindC
          rcases ih ne _ _ ssF t o (by simpa [State.inputs_setReg] using hwf) habs2
            (by simpa using hevrest) h with ⟨oF, hagree, hfin, hbranch⟩
          refine ⟨oF, hagree, hfin, ?_⟩
          intro c hcomp hz
          rw [execute_step_arith_continue (branchEnvironment c digits) prog fuel s
            (.Modulo reg opd) (Int.tmod (s.getReg reg) (s.value opd)) hpc hop hni
            (by simp [stepResult, hz0]) rfl]
          rw [show (Operation.Modulo reg opd).get_register = reg from rfl]
          exact hbranch c hcomp hz
      | Equal id reg opd =>
        have hni : ∀ id0 reg0, Operation.Equal id reg opd ≠ Operation.Input id0 reg0 := by simp
        have hdrop : prog.drop s.pc = Operation.Equal id reg opd :: prog.drop (s.pc + 1) := by
          rw [List.drop_eq_getElem_cons hpc, hop]
        rw [hdrop] at hwf hev
        simp only [numberedFrom, Bool.and_eq_true, beq_iff_eq] at hwf
        rcases hwf with ⟨hid, hwf2⟩
        have hid2 : ne = id := hid.symm
        subst hid2
        rcases evaluate_cons _ _ _ _ hev with ⟨ss2, hevop, hevrest⟩
        have hss2 : ss2 = ss.setReg reg (ss.do_equals ne reg opd) := by
          simp only [SymbolicState.evalOp, Option.some.injEq] at hevop
          exact hevop.symm
        rw [execute_step_arith_continue _ prog fuel s (.Equal ne reg opd)
          (if s.getReg reg = s.value opd then 1 else 0) hpc hop hni rfl rfl] at h
        rw [show (Operation.Equal ne reg opd).get_register = reg from rfl] at h
        rcases do_equals_entry (fun i =>
            if i = ne then decide (s.getReg reg = s.value opd) else o i) reg opd habs
          (by simp) (fun i hi => by simp [hi]) with ⟨hlenE, hfindE⟩
        have habs2 : symAbs (fun i => if i = ne then decide (s.getReg reg = s.value opd) else o i)
            (ne + 1) { s.setReg reg (if s.getReg reg = s.value opd then 1 else 0)
              with pc := s.pc + 1 } { ss2 with pc := ss2.pc + 1 } := by
          rw [hss2]
          refine symAbs_update2 reg _ _ _ _ habs (by omega) ?_ hlenE hfindE
          intro i hi
          simp [Nat.ne_of_lt hi]
        rcases ih (ne + 1) _ _ ssF t _ (by simpa [State.inputs_setReg] using hwf2) habs2
          (by simpa using hevrest) h with ⟨oF, hagree2, hfin, hbranch⟩
        refine ⟨oF, ?_, hfin, ?_⟩
        · intro i hi
          rw [hagree2 i (by omega)]
          simp [Nat.ne_of_lt hi]
        · intro c hcomp hz
          have hab : (branchEnvironment c digits).should_abandon (.Equal ne reg opd)
              (if s.getReg reg = s.value opd then 1 else 0) = false := by
            show constrainedAbandon c (.Equal ne reg opd)
              (if s.getReg reg = s.value opd then 1 else 0) = false
            simp only [constrainedAbandon]
            cases hcget : c.getD ne none with
            | none => rfl
            | some req =>
              have h1 := hcomp ne req hcget
              have h2 := hagree2 ne (by omega)
              simp at h2
              rw [eqResult_beq]
              rw [h2] at h1
              rw [h1]
              simp
          rw [execute_step_arith_continue (branchEnvironment c digits) prog fuel s
            (.Equal ne reg opd) (if s.getReg reg = s.value opd then 1 else 0) hpc hop hni
            rfl hab]
          rw [show (Operation.Equal ne reg opd).get_register = reg from rfl]
          exact hbranch c hcomp hz

/-! ## The constrained search returns the exploration-first success (C2) -/

theorem descDigits_range : ∀ d ∈ descDigits, 1 ≤ d ∧ d ≤ 9 := by decide

theorem ascDigits_range : ∀ d ∈ ascDigits, 1 ≤ d ∧ d ≤ 9 := by decide

theorem mem_descDigits (d : Int) (h1 : 1 ≤ d) (h9 : d ≤ 9) : d ∈ descDigits := by
  have hd : d = 1 ∨ d = 2 ∨ d = 3 ∨ d = 4 ∨ d = 5 ∨ d = 6 ∨ d = 7 ∨ d = 8 ∨ d = 9 := by omega
  rcases hd with rfl|rfl|rfl|rfl|rfl|rfl|rfl|rfl|rfl <;> decide

theorem mem_ascDigits (d : Int) (h1 : 1 ≤ d) (h9 : d ≤ 9) : d ∈ ascDigits := by
  have hd : d = 1 ∨ d = 2 ∨ d = 3 ∨ d = 4 ∨ d = 5 ∨ d = 6 ∨ d = 7 ∨ d = 8 ∨ d = 9 := by omega
  rcases hd with rfl|rfl|rfl|rfl|rfl|rfl|rfl|rfl|rfl <;> decide

theorem descDigits_pairwise : List.Pairwise (· > ·) descDigits := by decide

theorem ascDigits_pairwise : List.Pairwise (· < ·) ascDigits := by decide

theorem pairwise_mid {r : Int → Int → Prop} (l1 : List Int) {b : Int} {l2 L : List Int}
    (hL : L = l1 ++ b :: l2) (hp : List.Pairwise r L) : ∀ a ∈ l2, r b a := by
  subst hL
  rcases List.pairwise_append.mp hp with ⟨_, hp2, _⟩
  exact (List.pairwise_cons.mp hp2).1

theorem lex_append_lt {a b : Int} (hab : a < b) :
    ∀ (pre ta tb : List Int), List.Lex (· < ·) (pre ++ a :: ta) (pre ++ b :: tb) := by
  intro pre
  induction pre with
  | nil => intro ta tb; exact List.Lex.rel hab
  | cons p pre ih => intro ta tb; exact List.Lex.cons (ih ta tb)

/-- If some digit list completes the single pruned branch successfully,
the full constrained search from the same state can fail only by
success, panic or fuel exhaustion — never with the recoverable error
that would make the search move past this subtree. -/
theorem branch_ok_not_err (c : List (Option Bool)) (prog : List Operation) (desc : Bool)
    (digits : List Int) (hdig : ∀ d ∈ digits, 1 ≤ d ∧ d ≤ 9) :
    ∀ (fuelC : Nat) (s0 : State) (fuelE : Nat) (u : State) (m : String),
      execute (branchEnvironment c digits) prog fuelE s0 = .ok u →
      execute (constrainedEnvironment c desc) prog fuelC s0 ≠ .err m := by
  intro fuelC
  induction fuelC with
  | zero => intro s0 fuelE u m _ heq; simp [execute] at heq
  | succ fuelC ih =>
    intro s0 fuelE u m hE heq
    cases fuelE with
    | zero => simp [execute] at hE
    | succ fuelE =>
    by_cases hpc : s0.pc < prog.length
    case neg =>
      have hu : u = s0 := execute_ok_of_done _ prog _ s0 u (by omega) hE
      subst hu
      have hfin : (branchEnvironment c digits).can_finish u = true :=
        execute_ok_can_finish _ prog _ u u hE
      rw [execute_step_done _ prog fuelC u hpc] at heq
      rw [show (constrainedEnvironment c desc).can_finish u = true from hfin] at heq
      simp at heq
    case pos =>
      by_cases hin : ∃ id reg, prog[s0.pc] = Operation.Input id reg
      · rcases hin with ⟨id, reg, hop⟩
        rw [execute_step_input _ prog fuelE s0 id reg hpc hop] at hE
        cases htryE : tryList (fun d => execute (branchEnvironment c digits) prog fuelE
            (inputChild s0 reg d)) ((branchEnvironment c digits).get_input id) with
        | ok sfE =>
          rw [htryE] at hE
          rcases tryList_ok_split _ _ _ htryE with ⟨l1E, dE, l2E, hsplitE, hokE, _⟩
          by_cases hidlt : id < digits.length
          case neg =>
            have hcand : (branchEnvironment c digits).get_input id = [] := by
              show (simpleEnvironment digits).get_input id = []
              simp [simpleEnvironment, hidlt]
            rw [hcand] at hsplitE
            exact absurd hsplitE (by simp)
          case pos =>
          have hcand : (branchEnvironment c digits).get_input id = [digits[id]] := by
            show (simpleEnvironment digits).get_input id = [digits[id]]
            simp [simpleEnvironment, hidlt]
          rw [hcand] at hsplitE
          have hdE : dE = digits[id] := singleton_split hsplitE
          have hdrange := hdig digits[id] (List.getElem_mem hidlt)
          rw [execute_step_input _ prog fuelC s0 id reg hpc hop] at heq
          cases htryC : tryList (fun d => execute (constrainedEnvironment c desc) prog fuelC
              (inputChild s0 reg d)) ((constrainedEnvironment c desc).get_input id) with
          | ok sfC =>
            rw [htryC] at heq
            have heq2 : execute (constrainedEnvironment c desc) prog fuelC sfC = .err m := heq
            rcases tryList_ok_split _ _ _ htryC with ⟨_, dC, _, _, hokC, _⟩
            have hpcf := execute_ok_pc _ prog fuelC _ sfC hokC
            have hcf := execute_ok_can_finish _ prog fuelC _ sfC hokC
            cases fuelC with
            | zero => simp [execute] at heq2
            | succ f2 =>
              rw [execute_step_done _ prog f2 sfC (by omega), hcf] at heq2
              simp at heq2
          | err mC =>
            rw [htryC] at heq
            have hdc : digits[id] ∈ (constrainedEnvironment c desc).get_input id := by
              show digits[id] ∈ (if desc then descDigits else ascDigits)
              cases desc
              · simpa using mem_ascDigits digits[id] hdrange.1 hdrange.2
              · simpa using mem_descDigits digits[id] hdrange.1 hdrange.2
            rcases tryList_err_all _ _ _ htryC digits[id] hdc with ⟨m2, herrC⟩
            rw [hdE] at hokE
            exact ih (inputChild s0 reg digits[id]) fuelE sfE m2 hokE herrC
          | crash mC => rw [htryC] at heq; cases heq
          | timeout => rw [htryC] at heq; cases heq
        | err mE => rw [htryE] at hE; cases hE
        | crash mE => rw [htryE] at hE; cases hE
        | timeout => rw [htryE] at hE; cases hE
      · have hni : ∀ id0 reg0, prog[s0.pc] ≠ Operation.Input id0 reg0 := by
          intro id0 reg0 h0
          exact hin ⟨id0, reg0, h0⟩
        cases hres : stepResult s0 (prog[s0.pc]) with
        | none =>
          rw [execute_step_arith_crash _ prog fuelE s0 (prog[s0.pc]) hpc rfl hni hres] at hE
          cases hE
        | some result =>
          cases hab : constrainedAbandon c (prog[s0.pc]) result with
          | true =>
            rw [execute_step_arith_abandon _ prog fuelE s0 (prog[s0.pc]) result hpc rfl hni
              hres hab] at hE
            cases hE
          | false =>
            rw [execute_step_arith_continue _ prog fuelE s0 (prog[s0.pc]) result hpc rfl hni
              hres hab] at hE
            rw [execute_step_arith_continue _ prog fuelC s0 (prog[s0.pc]) result hpc rfl hni
              hres hab] at heq
            exact ih _ fuelE u m hE heq

/-- The constrained search is a depth-first traversal trying digits in
the environment's fixed order, so the branch it accepts is the
exploration-first successful branch: any digit list whose pruned branch
also succeeds produces a sequence no earlier in exploration order. -/
theorem search_first (c : List (Option Bool)) (prog : List Operation) (desc : Bool)
    (digits : List Int) (hdig : ∀ d ∈ digits, 1 ≤ d ∧ d ≤ 9)
    (P : List Int → List Int → Prop)
    (hP1 : ∀ l, P l l)
    (hP2 : ∀ (pre : List Int) (a b : Int) (ta tb : List Int),
      (∃ l1 l2, (if desc then descDigits else ascDigits) = l1 ++ b :: l2 ∧ a ∈ l2) →
      P (pre ++ a :: ta) (pre ++ b :: tb)) :
    ∀ (fuelC : Nat) (s0 sR : State) (fuelE : Nat) (u : State),
      execute (constrainedEnvironment c desc) prog fuelC s0 = .ok sR →
      execute (branchEnvironment c digits) prog fuelE s0 = .ok u →
      P u.inputs sR.inputs := by
  intro fuelC
  induction fuelC with
  | zero => intro s0 sR fuelE u hC _; simp [execute] at hC
  | succ fuelC ih =>
    intro s0 sR fuelE u hC hE
    cases fuelE with
    | zero => simp [execute] at hE
    | succ fuelE =>
    by_cases hpc : s0.pc < prog.length
    case neg =>
      have h1 : sR = s0 := execute_ok_of_done _ prog _ s0 sR (by omega) hC
      have h2 : u = s0 := execute_ok_of_done _ prog _ s0 u (by omega) hE
      rw [h1, h2]
      exact hP1 s0.inputs
    case pos =>
      by_cases hin : ∃ id reg, prog[s0.pc] = Operation.Input id reg
      · rcases hin with ⟨id, reg, hop⟩
        rw [execute_step_input _ prog fuelE s0 id reg hpc hop] at hE
        cases htryE : tryList (fun d => execute (branchEnvironment c digits) prog fuelE
            (inputChild s0 reg d)) ((branchEnvironment c digits).get_input id) with
        | ok sfE =>
          rw [htryE] at hE
          have hE2 : execute (branchEnvironment c digits) prog fuelE sfE = .ok u := hE
          rcases tryList_ok_split _ _ _ htryE with ⟨l1E, dE, l2E, hsplitE, hokE, _⟩
          by_cases hidlt : id < digits.length
          case neg =>
            have hcand : (branchEnvironment c digits).get_input id = [] := by
              show (simpleEnvironment digits).get_input id = []
              simp [simpleEnvironment, hidlt]
            rw [hcand] at hsplitE
            exact absurd hsplitE (by simp)
          case pos =>
          have hcand : (branchEnvironment c digits).get_input id = [digits[id]] := by
            show (simpleEnvironment digits).get_input id = [digits[id]]
            simp [simpleEnvironment, hidlt]
          rw [hcand] at hsplitE
          have hdE : dE = digits[id] := singleton_split hsplitE
          have hdrange : 1 ≤ dE ∧ dE ≤ 9 := by
            rw [hdE]
            exact hdig digits[id] (List.getElem_mem hidlt)
          have hpcfE := execute_ok_pc _ prog fuelE _ sfE hokE
          have hu : u = sfE := execute_ok_of_done _ prog fuelE sfE u hpcfE hE2
          subst hu
          rw [execute_step_input _ prog fuelC s0 id reg hpc hop] at hC
          cases htryC : tryList (fun d => execute (constrainedEnvironment c desc) prog fuelC
              (inputChild s0 reg d)) ((constrainedEnvironment c desc).get_input id) with
          | ok sfC =>
            rw [htryC] at hC
            have hC2 : execute (constrainedEnvironment c desc) prog fuelC sfC = .ok sR := hC
            rcases tryList_ok_split _ _ _ htryC with ⟨l1C, dC, l2C, hsplitC, hokC, herrC⟩
            have hpcfC := execute_ok_pc _ prog fuelC _ sfC hokC
            have hR : sR = sfC := execute_ok_of_done _ prog fuelC sfC sR hpcfC hC2
            subst hR
            have hdEmem : dE ∈ l1C ++ dC :: l2C := by
              rw [← hsplitC]
              show dE ∈ (if desc then descDigits else ascDigits)
              cases desc
              · simpa using mem_ascDigits dE hdrange.1 hdrange.2
              · simpa using mem_descDigits dE hdrange.1 hdrange.2
            rcases List.mem_append.mp hdEmem with hmem1 | hmem2
            · rcases herrC dE hmem1 with ⟨mC, herrdE⟩
              exact absurd herrdE
                (branch_ok_not_err c prog desc digits hdig fuelC _ fuelE _ mC hokE)
            · rcases List.mem_cons.mp hmem2 with heqd | hmem3
              · subst heqd
                exact ih (inputChild s0 reg dE) sR fuelE u hokC hokE
              · rcases execute_ok_inputs _ prog fuelE _ u hokE with ⟨lE, hlE⟩
                rcases execute_ok_inputs _ prog fuelC _ sR hokC with ⟨lC, hlC⟩
                have hiE : u.inputs = s0.inputs ++ dE :: lE := by
                  rw [hlE]
                  simp [inputChild]
                have hiC : sR.inputs = s0.inputs ++ dC :: lC := by
                  rw [hlC]
                  simp [inputChild]
                rw [hiE, hiC]
                exact hP2 s0.inputs dE dC lE lC ⟨l1C, l2C, hsplitC, hmem3⟩
          | err mC => rw [htryC] at hC; cases hC
          | crash mC => rw [htryC] at hC; cases hC
          | timeout => rw [htryC] at hC; cases hC
        | err mE => rw [htryE] at hE; cases hE
        | crash mE => rw [htryE] at hE; cases hE
        | timeout => rw [htryE] at hE; cases hE
      · have hni : ∀ id0 reg0, prog[s0.pc] ≠ Operation.Input id0 reg0 := by
          intro id0 reg0 h0
          exact hin ⟨id0, reg0, h0⟩
        cases hres : stepResult s0 (prog[s0.pc]) with
        | none =>
          rw [execute_step_arith_crash _ prog fuelE s0 (prog[s0.pc]) hpc rfl hni hres] at hE
          cases hE
        | some result =>
          cases hab : constrainedAbandon c (prog[s0.pc]) result with
          | true =>
            rw [execute_step_arith_abandon _ prog fuelE s0 (prog[s0.pc]) result hpc rfl hni
              hres hab] at hE
            cases hE
          | false =>
            rw [execute_step_arith_continue _ prog fuelE s0 (prog[s0.pc]) result hpc rfl hni
              hres hab] at hE
            rw [execute_step_arith_continue _ prog fuelC s0 (prog[s0.pc]) result hpc rfl hni
              hres hab] at hC
            exact ih _ sR fuelE u hC hE

theorem execute_cenv_inputs_range (c : List (Option Bool)) (desc : Bool)
    (prog : List Operation) :
    ∀ (fuel : Nat) (s0 t : State),
      (∀ d ∈ s0.inputs, 1 ≤ d ∧ d ≤ 9) →
      execute (constrainedEnvironment c desc) prog fuel s0 = .ok t →
      ∀ d ∈ t.inputs, 1 ≤ d ∧ d ≤ 9 := by
  intro fuel
  induction fuel with
  | zero => intro s0 t _ h; simp [execute] at h
  | succ fuel ih =>
    intro s0 t hr h
    by_cases hpc : s0.pc < prog.length
    case neg =>
      have ht : t = s0 := execute_ok_of_done _ prog _ s0 t (by omega) h
      rw [ht]
      exact hr
    case pos =>
      by_cases hin : ∃ id reg, prog[s0.pc] = Operation.Input id reg
      · rcases hin with ⟨id, reg, hop⟩
        rw [execute_step_input _ prog fuel s0 id reg hpc hop] at h
        cases htry : tryList (fun d => execute (constrainedEnvironment c desc) prog fuel
            (inputChild s0 reg d)) ((constrainedEnvironment c desc).get_input id) with
        | ok sf =>
          rw [htry] at h
          have h2 : execute (constrainedEnvironment c desc) prog fuel sf = .ok t := h
          rcases tryList_ok_split _ _ _ htry with ⟨l1, d, l2, hsplit, hok, _⟩
          have hdmem : d ∈ (if desc then descDigits else ascDigits) := by
            show d ∈ (constrainedEnvironment c desc).get_input id
            rw [hsplit]
            simp
          have hdr : 1 ≤ d ∧ d ≤ 9 := by
            cases desc
            · exact ascDigits_range d (by simpa using hdmem)
            · exact descDigits_range d (by simpa using hdmem)
          have hchildr : ∀ e ∈ (inputChild s0 reg d).inputs, 1 ≤ e ∧ e ≤ 9 := by
            intro e he
            simp only [inputChild] at he
            have he2 : e ∈ s0.inputs ∨ e = d := by simpa using he
            rcases he2 with h1 | h2
            · exact hr e h1
            · rw [h2]
              exact hdr
          have hsfr := ih _ sf hchildr hok
          exact ih sf t hsfr h2
        | err m => rw [htry] at h; cases h
        | crash m => rw [htry] at h; cases h
        | timeout => rw [htry] at h; cases h
      · have hni : ∀ id0 reg0, prog[s0.pc] ≠ Operation.Input id0 reg0 := by
          intro id0 reg0 h0
          exact hin ⟨id0, reg0, h0⟩
        cases hres : stepResult s0 (prog[s0.pc]) with
        | none =>
          rw [execute_step_arith_crash _ prog fuel s0 (prog[s0.pc]) hpc rfl hni hres] at h
          cases h
        | some result =>
          cases hab : constrainedAbandon c (prog[s0.pc]) result with
          | true =>
            rw [execute_step_arith_abandon _ prog fuel s0 (prog[s0.pc]) result hpc rfl hni
              hres hab] at h
            cases h
          | false =>
            rw [execute_step_arith_continue _ prog fuel s0 (prog[s0.pc]) result hpc rfl hni
              hres hab] at h
            refine ih _ t ?_ h
            simpa [State.inputs_setReg] using hr

theorem compute_symbolic_some (prog : List Operation) (c : List (Option Bool))
    (h : compute_symbolic prog = some c) :
    ∃ ssF crumb, SymbolicState.evaluate {} prog = some ssF ∧
      (ssF.getReg .Z).find 0 = some crumb ∧ c = crumb.get_constraint := by
  unfold compute_symbolic at h
  cases hev : SymbolicState.evaluate {} prog with
  | none => rw [hev] at h; cases h
  | some ssF =>
    rw [hev] at h
    have h2 : (match (ssF.getReg Register.Z).find 0 with
      | some crumb => some crumb.get_constraint
      | none => none) = some c := h
    cases hf : (ssF.getReg .Z).find 0 with
    | none => rw [hf] at h2; cases h2
    | some crumb =>
      rw [hf] at h2
      injection h2 with h2
      exact ⟨ssF, crumb, rfl, hf, h2.symm⟩

theorem compatible_of_sat {o : Nat → Bool} {bc : BreadCrumb} (hsat : satBC o bc) :
    compatible bc.get_constraint o := by
  intro id b hb
  unfold BreadCrumb.get_constraint at hb
  rw [List.getD_eq_getElem?_getD, List.getElem?_map] at hb
  cases hg : bc.crumbs[id]? with
  | none => rw [hg] at hb; simp at hb
  | some uu =>
    rw [hg] at hb
    simp at hb
    have hget : bc.get id = uu := by
      simp [BreadCrumb.get, List.getD_eq_getElem?_getD, hg]
    rcases hsat id with hany | hpin
    · rw [hget] at hany
      rw [hany] at hb
      simp [SymbolicBoolean.get_single] at hb
    · rw [hget] at hpin
      rw [hpin] at hb
      cases ho : o id
      · rw [ho] at hb
        simp [SymbolicBoolean.get_single] at hb
        rw [hb]
      · rw [ho] at hb
        simp [SymbolicBoolean.get_single] at hb
        rw [hb]

/-- C2.  When the constrained search over the constraint vector derived
by `compute_symbolic` succeeds, the descending search (digits tried 9
down to 1) returns the lexicographically largest digit sequence in 1..9
driving register Z to exactly zero (the returned sequences themselves
re-execute to Z = 0 and bound every other zeroing sequence), the
ascending search returns the smallest, and in particular the ascending
result is ≤ the descending result.  The
derived constraints are necessary for any zeroing run (via the
breadcrumb satisfaction invariant), so pruning never skips a valid
sequence, and depth-first order makes the first accepted branch the
extreme one. -/
theorem claim_C2 (prog : List Operation) (c : List (Option Bool)) (fuelD fuelA : Nat)
    (sD sA : State) (hwf : wellFormed prog)
    (hc : compute_symbolic prog = some c)
    (hD : execute (constrainedEnvironment c true) prog fuelD {} = .ok sD)
    (hA : execute (constrainedEnvironment c false) prog fuelA {} = .ok sA) :
    (execute (simpleEnvironment sD.inputs) prog fuelD {} = .ok sD ∧ sD.getReg .Z = 0) ∧
    (execute (simpleEnvironment sA.inputs) prog fuelA {} = .ok sA ∧ sA.getReg .Z = 0) ∧
    (∀ (digits : List Int) (fuel : Nat) (t : State),
      (∀ d ∈ digits, 1 ≤ d ∧ d ≤ 9) →
      execute (simpleEnvironment digits) prog fuel {} = .ok t →
      t.getReg .Z = 0 →
      lexLE t.inputs sD.inputs ∧ lexLE sA.inputs t.inputs) ∧
    lexLE sA.inputs sD.inputs := by
  rcases compute_symbolic_some prog c hc with ⟨ssF, crumb, hev, hfindZ, hcdef⟩
  have main : ∀ (digits : List Int) (fuel : Nat) (t : State),
      (∀ d ∈ digits, 1 ≤ d ∧ d ≤ 9) →
      execute (simpleEnvironment digits) prog fuel {} = .ok t →
      t.getReg .Z = 0 →
      lexLE t.inputs sD.inputs ∧ lexLE sA.inputs t.inputs := by
    intro digits fuel t hdig hrun hz
    have habs0 : symAbs (fun _ => false) 0 {} {} := by
      intro r
      cases r <;>
        exact ⟨entriesLen_literal 0 0, BreadCrumb.init, find_literal 0, satBC_init _⟩
    rcases nec_sim prog digits hdig fuel 0 {} {} ssF t (fun _ => false)
      (by simpa [wellFormed] using hwf) habs0 hev hrun with ⟨oF, _, ⟨neF, habsF⟩, hbranch⟩
    rcases habsF .Z with ⟨_, bc, hfbc, hsatbc⟩
    rw [hz] at hfbc
    have hbceq : bc = crumb := by
      rw [hfindZ] at hfbc
      injection hfbc with hfbc
      exact hfbc.symm
    have hcomp : compatible c oF := by
      rw [hcdef]
      exact compatible_of_sat (hbceq ▸ hsatbc)
    have hbr := hbranch c hcomp hz
    constructor
    · refine search_first c prog true digits hdig lexLE (fun l => Or.inr rfl) ?_
        fuelD {} sD fuel t hD hbr
      rintro pre a b ta tb ⟨l1, l2, hsplit, hmem⟩
      have hba : b > a := pairwise_mid l1 (by simpa using hsplit) descDigits_pairwise a hmem
      exact Or.inl (lex_append_lt hba pre ta tb)
    · refine search_first c prog false digits hdig (fun x y => lexLE y x) (fun l => Or.inr rfl)
        ?_ fuelA {} sA fuel t hA hbr
      rintro pre a b ta tb ⟨l1, l2, hsplit, hmem⟩
      have hba : b < a := pairwise_mid l1 (by simpa using hsplit) ascDigits_pairwise a hmem
      exact Or.inl (lex_append_lt hba pre tb ta)
  have hreplayD := replay c true prog fuelD 0 {} sD (by simpa [wellFormed] using hwf) hD
  have hzD : sD.getReg .Z = 0 := by
    have hfin := execute_ok_can_finish _ prog fuelD _ sD hD
    simpa [constrainedEnvironment] using hfin
  have hrangeA : ∀ d ∈ sA.inputs, 1 ≤ d ∧ d ≤ 9 :=
    execute_cenv_inputs_range c false prog fuelA {} sA (by simp) hA
  have hreplayA := replay c false prog fuelA 0 {} sA (by simpa [wellFormed] using hwf) hA
  have hzA : sA.getReg .Z = 0 := by
    have hfin := execute_ok_can_finish _ prog fuelA _ sA hA
    simpa [constrainedEnvironment] using hfin
  exact ⟨⟨hreplayD, hzD⟩, ⟨hreplayA, hzA⟩, main,
    (main sA.inputs fuelA sA hrangeA hreplayA hzA).1⟩

theorem claim_C2_witness :
    lexLE [1, 1] [9, 9] :=
  (claim_C2 [.Input 0 .W, .Multiply .W (.Value 10), .Input 1 .X, .Add .W (.Register .X),
      .Add .Y (.Register .W), .Equal 0 .Y (.Value 56)] [] 50 50
    { w := 99, x := 9, y := 0, z := 0, inputs := [9, 9], pc := 6 }
    { w := 11, x := 1, y := 0, z := 0, inputs := [1, 1], pc := 6 }
    (by unfold wellFormed; decide) (by decide) (by decide) (by decide)).2.2.2
